import Mathlib

/-!
# Verification of the 8-puzzle A* solver

Shallow embedding of the repository's core modules:
* `puzzles/heuristics.py` : `hamming_distance`, `manhattan_distance`, `compute_h`
* `puzzles/puzzle.py`     : `PuzzleState` (`__init__`, `neighbors`, `__eq__`, `__hash__`)
* `puzzles/helpers.py`    : `is_solvable`
* `puzzles/search.py`     : `a_star_search`, `reconstruct_path`

Python machine details are modelled as follows: lists of ints become `List Nat`
(all quantities in this program are non-negative and small, no overflow is
possible), raising an exception becomes `Except String`, the `heapq` frontier
becomes a list together with an extract-min operation (`popMin`) on the pushed
`(f, h, counter, state)` tuples — with the distinct-counter invariant the heap
order is exactly lexicographic extract-min — and the unbounded `while` loop
becomes a fuel-indexed recursion (`none` = fuel ran out; a separate theorem
shows enough fuel always exists, which is the termination statement).
-/

namespace Puzzle8

/-- The goal configuration used throughout the repository
(`GOAL_STATE` in `puzzles/config.py`, also written out in the spec). -/
def goalBoard : List Nat := [1, 2, 3, 4, 5, 6, 7, 8, 0]

/-! ## Heuristics (`puzzles/heuristics.py`) -/

/-- `hamming_distance(board, goal)`:
`sum(1 for i in range(9) if board[i] != 0 and board[i] != goal[i])`. -/
def hamming_distance (board goal : List Nat) : Nat :=
  ((List.range 9).filter
    (fun i => board.getD i 0 ≠ 0 && board.getD i 0 ≠ goal.getD i 0)).length

/-- The Manhattan contribution of the tile `tile` sitting at index `i`
(`abs(x1 - x2) + abs(y1 - y2)` after `divmod` by 3; 0 for the blank). -/
def manhattanTerm (goal : List Nat) (i tile : Nat) : Nat :=
  if tile ≠ 0 then
    ((i / 3 : Int) - ((goal.indexOf tile : Nat) / 3 : Int)).natAbs +
      ((i % 3 : Int) - ((goal.indexOf tile : Nat) % 3 : Int)).natAbs
  else 0

/-- `manhattan_distance(board, goal)`: iterate `enumerate(board)`, skip the
blank, and accumulate row and column distances to the tile's index in `goal`. -/
def manhattan_distance (board goal : List Nat) : Nat :=
  (board.enum.map (fun p => manhattanTerm goal p.1 p.2)).sum

/-- `compute_h(board, goal, method)`: dispatch on the method name; an
unrecognized name raises `ValueError(f"Unsupported heuristic method: {method}")`. -/
def compute_h (board goal : List Nat) (method : String) : Except String Nat :=
  if method = "hamming" then .ok (hamming_distance board goal)
  else if method = "manhattan" then .ok (manhattan_distance board goal)
  else .error ("Unsupported heuristic method: " ++ method)

/-! ## The state container (`puzzles/puzzle.py`) -/

/-- `PuzzleState`: board, `g`, `h`, `f`, and the `parent` attribute
(absent on a freshly constructed state, assigned by the search engine;
`getattr(state, 'parent', None)` reads it back, so absent = `none`). -/
inductive PState : Type where
  | mk (board : List Nat) (g : Nat) (h : Nat) (f : Nat)
      (parent : Option PState) : PState

def PState.board : PState → List Nat
  | .mk b _ _ _ _ => b

def PState.g : PState → Nat
  | .mk _ g _ _ _ => g

def PState.h : PState → Nat
  | .mk _ _ h _ _ => h

def PState.f : PState → Nat
  | .mk _ _ _ f _ => f

def PState.parent : PState → Option PState
  | .mk _ _ _ _ p => p

/-- `PuzzleState.__init__(board, g=0, h=0)`: stores the fields, sets
`f = g + h` and caches `blank_index = board.index(0)` — `list.index` raises
`ValueError` when the board contains no `0`. No other validation happens. -/
def mkPuzzleState (board : List Nat) (g : Nat := 0) (h : Nat := 0) :
    Except String PState :=
  if 0 ∈ board then .ok (.mk board g h (g + h) none)
  else .error "ValueError: 0 is not in list"

/-- The cached `blank_index` attribute: the board is never mutated after
construction, so the cache always equals `board.index(0)`. -/
def PState.blank_index (s : PState) : Nat := s.board.indexOf 0

/-- `new_board[i], new_board[j] = new_board[j], new_board[i]` on a copy. -/
def swapCells (b : List Nat) (i j : Nat) : List Nat :=
  (b.set i (b.getD j 0)).set j (b.getD i 0)

/-- The four movement deltas tried by `neighbors`, in source order:
up `(-1,0)`, down `(1,0)`, left `(0,-1)`, right `(0,1)`. -/
def moveDeltas : List (Int × Int) := [(-1, 0), (1, 0), (0, -1), (0, 1)]

/-- `PuzzleState.neighbors()`: for each in-bounds delta, swap the blank with
the adjacent cell and build `PuzzleState(new_board, self.g + 1)`
(so the child has `h = 0`, `f = g + 1`, no parent yet). -/
def PState.neighbors (s : PState) : List PState :=
  let bi := s.blank_index
  let row := bi / 3
  let col := bi % 3
  moveDeltas.filterMap (fun d =>
    let r : Int := (row : Int) + d.1
    let c : Int := (col : Int) + d.2
    if 0 ≤ r ∧ r < 3 ∧ 0 ≤ c ∧ c < 3 then
      some (PState.mk (swapCells s.board bi (r.toNat * 3 + c.toNat))
        (s.g + 1) 0 (s.g + 1) none)
    else none)

/-- `PuzzleState.__eq__`: `tuple(self.board) == tuple(other.board)`. -/
def stateEq (s t : PState) : Bool := s.board == t.board

/-- `PuzzleState.__hash__`: `hash(tuple(self.board))` — some fixed function
of the board tuple and of nothing else. -/
def stateHash (s : PState) : UInt64 := hash s.board

/-! ## Solvability (`puzzles/helpers.py`) -/

/-- Inversion count of a sequence: pairs `i < j` with `arr[i] > arr[j]`. -/
def inversions : List Nat → Nat
  | [] => 0
  | x :: xs => xs.countP (fun y => y < x) + inversions xs

/-- `is_solvable(board)`: drop the blank, count inversions, test evenness. -/
def is_solvable (board : List Nat) : Bool :=
  inversions (board.filter (fun x => x ≠ 0)) % 2 == 0

/-- Cross-inversions between two blocks: pairs (a from `A`, b from `B`)
with `b < a`. Bookkeeping for inversion counts of concatenations. -/
def crossInv (A B : List Nat) : Nat :=
  (A.map (fun a => B.countP (fun b => b < a))).sum

/-! ## The search engine (`puzzles/search.py`) -/

/-- A frontier entry as pushed by the search:
`(state.f, state.h, next(counter), state)`. -/
abbrev Entry := Nat × Nat × Nat × PState

def Entry.key (e : Entry) : Nat × Nat × Nat := (e.1, e.2.1, e.2.2.1)

def Entry.state (e : Entry) : PState := e.2.2.2

/-- Lexicographic order on `(f, h, counter)` — the order `heapq` uses on the
pushed tuples (the fourth component is never compared because counters are
unique). -/
def keyLE (a b : Nat × Nat × Nat) : Prop :=
  a.1 < b.1 ∨ (a.1 = b.1 ∧ (a.2.1 < b.2.1 ∨ (a.2.1 = b.2.1 ∧ a.2.2 ≤ b.2.2)))

instance : ∀ a b, Decidable (keyLE a b) := fun a b => by
  unfold keyLE; infer_instance

/-- Extract-min from the frontier: `heapq.heappop` returns an entry whose
`(f, h, counter)` tuple is minimal. -/
def popMin : List Entry → Option (Entry × List Entry)
  | [] => none
  | e :: es =>
    match popMin es with
    | none => some (e, [])
    | some (m, rest) =>
      if keyLE e.key m.key then some (e, es) else some (m, e :: rest)

/-- Membership test against the `explored` set: Python set membership driven
by `PuzzleState.__eq__`, i.e. board equality. -/
def inExplored (s : PState) (explored : List PState) : Bool :=
  explored.any (fun t => stateEq t s)

/-- The parent chain of a state, starting at the state itself
(the `while state:` loop of `reconstruct_path` before the `reverse`). -/
def pathToRoot : PState → List PState
  | .mk b g h f none => [.mk b g h f none]
  | .mk b g h f (some p) => .mk b g h f (some p) :: pathToRoot p

/-- `reconstruct_path(state)`: collect the parent chain, then reverse. -/
def reconstruct_path (s : PState) : List PState := (pathToRoot s).reverse

/-- The neighbor-expansion loop body: for each neighbor not in `explored`,
compute `h` (which can raise for a bad method name), set `g`, `f`, `parent`,
and push `(f, h, next(counter), neighbor)`. Returns the grown frontier and
the advanced counter. -/
def pushNeighbors (goal : List Nat) (method : String) (current : PState) :
    List PState → List PState → List Entry → Nat →
      Except String (List Entry × Nat)
  | [], _, frontier, counter => .ok (frontier, counter)
  | nb :: rest, explored, frontier, counter =>
    if inExplored nb explored then
      pushNeighbors goal method current rest explored frontier counter
    else
      match compute_h nb.board goal method with
      | .error e => .error e
      | .ok hv =>
        let gv := current.g + 1
        let nb' : PState := .mk nb.board gv hv (gv + hv) (some current)
        pushNeighbors goal method current rest explored
          (frontier ++ [(gv + hv, hv, counter, nb')]) (counter + 1)

/-- The `while frontier:` loop of `a_star_search`, fuel-indexed.
`none` means the fuel ran out before the loop finished; `some r` is the
Python result: either a raised exception or `(path-or-None, explored_count)`. -/
def aStarLoop (goal : List Nat) (method : String) :
    Nat → List Entry → List PState → Nat → Nat →
      Option (Except String (Option (List PState) × Nat))
  | 0, _, _, _, _ => none
  | fuel + 1, frontier, explored, counter, explored_count =>
    match popMin frontier with
    | none => some (.ok (none, explored_count))
    | some (e, rest) =>
      let current := e.state
      if current.board = goal then
        some (.ok (some (reconstruct_path current), explored_count))
      else if inExplored current explored then
        aStarLoop goal method fuel rest explored counter explored_count
      else
        match pushNeighbors goal method current current.neighbors
            (current :: explored) rest counter with
        | .error err => some (.error err)
        | .ok (frontier', counter') =>
          aStarLoop goal method fuel frontier' (current :: explored)
            counter' (explored_count + 1)

/-- `a_star_search(start_state, goal_state, heuristic_method)`:
recompute `start_state.h` with the selected heuristic (raising on an unknown
method name), set `start_state.f = g + h`, push `(f, h, 0, start)` and run
the loop with the counter at 1 and zero expansions. -/
def a_star_search (start : PState) (goal : List Nat) (method : String)
    (fuel : Nat) : Option (Except String (Option (List PState) × Nat)) :=
  match compute_h start.board goal method with
  | .error e => some (.error e)
  | .ok h0 =>
    let start' : PState := .mk start.board start.g h0 (start.g + h0) start.parent
    aStarLoop goal method fuel [(start'.f, start'.h, 0, start')] [] 1 0

/-- The blank's swap targets in the spec's emission order (up, down, left,
right), each dropped when the move would leave the 3×3 grid. Used to state
what `neighbors` must produce. -/
def targetsUDLR (bi : Nat) : List Nat :=
  (if 3 ≤ bi then [bi - 3] else []) ++
  (if bi + 3 < 9 then [bi + 3] else []) ++
  (if bi % 3 ≠ 0 then [bi - 1] else []) ++
  (if bi % 3 ≠ 2 then [bi + 1] else [])

/-- The counter bookkeeping invariant the search maintains on its frontier:
every pushed entry carries a counter below the next counter value, and no
two entries share a counter (the itertools counter is never reused). -/
def counterInv (frontier : List Entry) (counter : Nat) : Prop :=
  (∀ e ∈ frontier, e.2.2.1 < counter) ∧
    frontier.Pairwise (fun a b => a.2.2.1 ≠ b.2.2.1)

/-- A board that is a permutation of the tiles 0..8. -/
def permBoard (b : List Nat) : Prop := b.Perm [0, 1, 2, 3, 4, 5, 6, 7, 8]

/-- The number of permutation boards (never evaluated, only a bound). -/
def NBOARDS : Nat := ([0, 1, 2, 3, 4, 5, 6, 7, 8] : List Nat).permutations.length

/-- The boards of the successor states of a board — `neighbors` depends only
on the board, so this is the one-move adjacency at board level. -/
def moveBoards (b : List Nat) : List (List Nat) :=
  (PState.mk b 0 0 0 none).neighbors.map PState.board

/-- One legal blank move transforms `b` into `b'`. -/
def adjStep (b b' : List Nat) : Prop := b' ∈ moveBoards b

/-- `b'` is reachable from `b` by a sequence of legal moves. -/
def Reachable (b b' : List Nat) : Prop := Relation.ReflTransGen adjStep b b'

/-- The root of a state's parent chain (the state the search started from). -/
def rootState : PState → PState
  | .mk b g h f none => .mk b g h f none
  | .mk _ _ _ _ (some p) => rootState p

/-- The boards sitting in the frontier. -/
def frontierBoards (frontier : List Entry) : List (List Nat) :=
  frontier.map (fun e => (Entry.state e).board)

/-- Everything the A* loop maintains about its frontier and explored set
that the termination and completeness arguments need. `start'` is the
(re-initialized) start state. -/
structure LoopInv (start' : PState) (goal : List Nat)
    (frontier : List Entry) (explored : List PState) : Prop where
  frontierValid : ∀ e ∈ frontier, permBoard (Entry.state e).board
  exploredValid : ∀ s ∈ explored, permBoard s.board
  exploredNodup : (explored.map PState.board).Nodup
  goalNotExplored : goal ∉ explored.map PState.board
  closure : ∀ s ∈ explored, ∀ b ∈ moveBoards s.board,
    b ∈ explored.map PState.board ∨ b ∈ frontierBoards frontier
  startMem : start'.board ∈ explored.map PState.board ∨
    start'.board ∈ frontierBoards frontier
  roots : ∀ e ∈ frontier, rootState (Entry.state e) = start'
  reach : ∀ e ∈ frontier, Reachable start'.board (Entry.state e).board

/-- Apply a position rearrangement: cell `i` of the result holds the cell
`P[i]` of `b`. -/
def applyPerm (P b : List Nat) : List Nat := P.map (fun i => b.getD i 0)

/-- Where a movement delta sends the blank from position `p` (mirrors the
bounds check of `neighbors`). -/
def moveTargetPos (p : Nat) (d : Int × Int) : Option Nat :=
  let r : Int := ((p / 3 : Nat) : Int) + d.1
  let c : Int := ((p % 3 : Nat) : Int) + d.2
  if 0 ≤ r ∧ r < 3 ∧ 0 ≤ c ∧ c < 3 then some (r.toNat * 3 + c.toNat) else none

/-- Apply one blank move to a board (`none` when it would leave the grid). -/
def applyMove (b : List Nat) (d : Int × Int) : Option (List Nat) :=
  match moveTargetPos (b.indexOf 0) d with
  | none => none
  | some q => some (swapCells b (b.indexOf 0) q)

/-- Apply a sequence of blank moves. -/
def applyWord (b : List Nat) : List (Int × Int) → Option (List Nat)
  | [] => some b
  | d :: w =>
    match applyMove b d with
    | none => none
    | some b₁ => applyWord b₁ w

/-- The transposition of positions `p` and `q` as a rearrangement list. -/
def transpList (p q : Nat) : List Nat :=
  (List.range 9).map (fun k => if k = p then q else if k = q then p else k)

/-- Rearrangement composition: `(composePerm T P)[i] = T[P[i]]`. -/
def composePerm (T P : List Nat) : List Nat := P.map (fun i => T.getD i 0)

/-- Position-level simulation of a word from blank position `p`: the net
rearrangement and the final blank position, or `none` on an illegal move. -/
def wordPermAux (p : Nat) : List (Int × Int) → Option (List Nat × Nat)
  | [] => some (List.range 9, p)
  | d :: w =>
    match moveTargetPos p d with
    | none => none
    | some q =>
      match wordPermAux q w with
      | none => none
      | some (P, p') => some (composePerm (transpList p q) P, p')

/-- Move words (found by search offline, verified here by computation):
`wordFor k j` starts and ends with the blank at position 8, moves the tile
at position `j` to position `k`, and fixes every position strictly between
`k` and 8. -/
def wordFor : Nat → Nat → List (Int × Int)
  | 2, 0 => [(-1, 0), (-1, 0), (0, -1), (0, -1), (1, 0), (0, 1), (-1, 0), (0, 1), (1, 0), (0, -1), (0, -1), (-1, 0), (0, 1), (0, 1), (1, 0), (1, 0)]
  | 2, 1 => [(-1, 0), (-1, 0), (0, -1), (1, 0), (0, 1), (1, 0), (0, -1), (0, -1), (-1, 0), (0, 1), (-1, 0), (0, -1), (1, 0), (1, 0), (0, 1), (0, 1)]
  | 3, 0 => [(-1, 0), (0, -1), (0, -1), (-1, 0), (0, 1), (1, 0), (0, 1), (1, 0)]
  | 3, 1 => [(-1, 0), (0, -1), (-1, 0), (0, -1), (1, 0), (0, 1), (0, 1), (1, 0)]
  | 3, 2 => [(-1, 0), (-1, 0), (0, -1), (1, 0), (0, 1), (-1, 0), (0, -1), (0, -1), (1, 0), (0, 1), (0, 1), (-1, 0), (0, -1), (1, 0), (0, 1), (1, 0)]
  | 4, 0 => [(-1, 0), (-1, 0), (0, -1), (0, -1), (1, 0), (0, 1), (-1, 0), (0, 1), (1, 0), (1, 0)]
  | 4, 1 => [(-1, 0), (0, -1), (-1, 0), (0, 1), (1, 0), (1, 0)]
  | 4, 2 => [(-1, 0), (-1, 0), (0, -1), (1, 0), (0, 1), (1, 0)]
  | 4, 3 => [(-1, 0), (0, -1), (0, -1), (-1, 0), (0, 1), (0, 1), (1, 0), (1, 0)]
  | 5, 0 => [(0, -1), (-1, 0), (-1, 0), (0, -1), (1, 0), (0, 1), (-1, 0), (0, 1), (1, 0), (0, -1), (1, 0), (0, 1)]
  | 5, 1 => [(0, -1), (-1, 0), (-1, 0), (0, 1), (1, 0), (0, -1), (1, 0), (0, 1)]
  | 5, 2 => [(0, -1), (-1, 0), (0, 1), (-1, 0), (0, -1), (1, 0), (1, 0), (0, 1)]
  | 5, 3 => [(0, -1), (-1, 0), (0, -1), (-1, 0), (0, 1), (0, 1), (1, 0), (0, -1), (1, 0), (0, 1)]
  | 5, 4 => [(0, -1), (0, -1), (-1, 0), (-1, 0), (0, 1), (0, 1), (1, 0), (0, -1), (0, -1), (1, 0), (0, 1), (0, 1)]
  | 6, 0 => [(0, -1), (-1, 0), (0, -1), (-1, 0), (0, 1), (1, 0), (1, 0), (0, -1), (-1, 0), (0, 1), (1, 0), (0, 1)]
  | 6, 1 => [(-1, 0), (0, -1), (-1, 0), (0, 1), (1, 0), (1, 0), (0, -1), (-1, 0), (0, -1), (1, 0), (0, 1), (0, 1)]
  | 6, 2 => [(-1, 0), (-1, 0), (0, -1), (1, 0), (0, 1), (1, 0), (0, -1), (-1, 0), (0, -1), (1, 0), (0, 1), (0, 1)]
  | 6, 3 => [(0, -1), (0, -1), (-1, 0), (0, 1), (1, 0), (0, 1)]
  | 6, 4 => [(0, -1), (-1, 0), (0, -1), (1, 0), (0, 1), (0, 1)]
  | 6, 5 => [(-1, 0), (0, -1), (1, 0), (0, 1), (-1, 0), (-1, 0), (0, -1), (0, -1), (1, 0), (1, 0), (0, 1), (-1, 0), (0, 1), (1, 0)]
  | 7, 0 => [(-1, 0), (0, -1), (0, -1), (-1, 0), (0, 1), (1, 0), (0, -1), (1, 0), (0, 1), (-1, 0), (0, 1), (1, 0)]
  | 7, 1 => [(-1, 0), (0, -1), (-1, 0), (0, -1), (1, 0), (1, 0), (0, 1), (-1, 0), (0, 1), (1, 0)]
  | 7, 2 => [(-1, 0), (-1, 0), (0, -1), (1, 0), (1, 0), (0, 1), (-1, 0), (0, -1), (1, 0), (0, 1)]
  | 7, 3 => [(-1, 0), (0, -1), (0, -1), (1, 0), (0, 1), (-1, 0), (0, 1), (1, 0)]
  | 7, 4 => [(0, -1), (-1, 0), (0, 1), (1, 0)]
  | 7, 5 => [(-1, 0), (0, -1), (1, 0), (0, 1)]
  | 7, 6 => [(0, -1), (0, -1), (-1, 0), (0, 1), (0, 1), (1, 0)]
  | _, _ => []

/-- A move word taking the blank from position `p` to position 8
(walk right to the last column, then down to the last row). -/
def blankWord : Nat → List (Int × Int)
  | 0 => [(0, 1), (0, 1), (1, 0), (1, 0)]
  | 1 => [(0, 1), (1, 0), (1, 0)]
  | 2 => [(1, 0), (1, 0)]
  | 3 => [(0, 1), (0, 1), (1, 0)]
  | 4 => [(0, 1), (1, 0)]
  | 5 => [(1, 0)]
  | 6 => [(0, 1), (0, 1)]
  | 7 => [(0, 1)]
  | _ => []

/-- Computable check of a tile-placement certificate `wordFor k j`. -/
def checkCert (k j : Nat) : Bool :=
  match wordPermAux 8 (wordFor k j) with
  | none => false
  | some (P, p') =>
    p' == 8 && P.getD k 0 == j &&
      ((List.range 9).all fun i =>
        !(decide (k < i) && decide (i < 8)) || (P.getD i 0 == i)) &&
      (wordFor k j).all (fun d => decide (d ∈ moveDeltas))

/-- Computable check of a blank-transport certificate `blankWord p`. -/
def checkBlank (p : Nat) : Bool :=
  match wordPermAux p (blankWord p) with
  | none => false
  | some (_, p') => p' == 8 && (blankWord p).all (fun d => decide (d ∈ moveDeltas))

/-! ## Claims about construction, equality and the heuristic selector -/

/-- **C6.** On a permutation board, `neighbors` emits exactly the in-grid
successors in the order up, down, left, right, each obtained by swapping the
blank with the adjacent cell and carrying `g = parent.g + 1`; consequently
there are 2 successors from a corner blank, 4 from the center, 3 from an
edge. -/
theorem claim_C6 (s : PState)
    (hperm : s.board.Perm [0, 1, 2, 3, 4, 5, 6, 7, 8]) :
    s.neighbors = (targetsUDLR (s.board.indexOf 0)).map
      (fun q => PState.mk (swapCells s.board (s.board.indexOf 0) q)
        (s.g + 1) 0 (s.g + 1) none) ∧
    s.neighbors.length =
      (if s.board.indexOf 0 ∈ [0, 2, 6, 8] then 2
        else if s.board.indexOf 0 = 4 then 4 else 3) ∧
    (∀ t ∈ s.neighbors, t.g = s.g + 1) := by
  have hmem : (0 : Nat) ∈ s.board := hperm.mem_iff.mpr (by norm_num)
  have hbi9 : s.board.indexOf 0 < 9 := by
    have h1 := List.indexOf_lt_length.mpr hmem
    have h2 : s.board.length = 9 := by simpa using hperm.length_eq
    omega
  obtain ⟨bi, hbi⟩ : ∃ bi, s.board.indexOf 0 = bi := ⟨_, rfl⟩
  rw [hbi] at hbi9 ⊢
  have hmain : s.neighbors = (targetsUDLR bi).map
      (fun q => PState.mk (swapCells s.board bi q)
        (s.g + 1) 0 (s.g + 1) none) := by
    simp only [PState.neighbors, PState.blank_index, hbi, moveDeltas]
    interval_cases bi <;> rfl
  refine ⟨hmain, ?_, ?_⟩
  · rw [hmain, List.length_map]
    interval_cases bi <;> rfl
  · intro t ht
    rw [hmain] at ht
    obtain ⟨q, -, rfl⟩ := List.mem_map.mp ht
    rfl

/-- Witness for C6 at a concrete center-blank permutation board. -/
theorem claim_C6_witness :
    PState.neighbors (.mk [1, 2, 3, 4, 0, 5, 6, 7, 8] 2 0 0 none) =
      (targetsUDLR ([1, 2, 3, 4, 0, 5, 6, 7, 8].indexOf 0)).map
        (fun q => PState.mk
          (swapCells [1, 2, 3, 4, 0, 5, 6, 7, 8]
            ([1, 2, 3, 4, 0, 5, 6, 7, 8].indexOf 0) q) 3 0 3 none) ∧
    (PState.neighbors (.mk [1, 2, 3, 4, 0, 5, 6, 7, 8] 2 0 0 none)).length =
      (if [1, 2, 3, 4, 0, 5, 6, 7, 8].indexOf 0 ∈ [0, 2, 6, 8] then 2
        else if [1, 2, 3, 4, 0, 5, 6, 7, 8].indexOf 0 = 4 then 4 else 3) ∧
    (∀ t ∈ PState.neighbors (.mk [1, 2, 3, 4, 0, 5, 6, 7, 8] 2 0 0 none),
      t.g = 3) :=
  claim_C6 (.mk [1, 2, 3, 4, 0, 5, 6, 7, 8] 2 0 0 none) (by decide)

/-- The length of a filtered list as a sum of indicator values. -/
theorem length_filter_eq_sum_map (p : Nat → Bool) (l : List Nat) :
    (l.filter p).length = (l.map (fun i => if p i then 1 else 0)).sum := by
  induction l with
  | nil => rfl
  | cons x xs ih =>
    by_cases hx : p x
    · simp [List.filter, hx, ih]
      omega
    · simp [List.filter, hx, ih]

/-- A misplaced non-blank tile contributes at least 1 to the Manhattan
distance: checked for all 81 combinations of index and tile value. -/
theorem manhattanTerm_ge_aux :
    ∀ i < 9, ∀ t < 9,
      (if t ≠ 0 ∧ t ≠ goalBoard.getD i 0 then 1 else 0) ≤
        manhattanTerm goalBoard i t := by decide

/-- Restatement of `manhattanTerm_ge_aux` with the bounds as hypotheses. -/
theorem manhattanTerm_ge (i t : Nat) (hi : i < 9) (ht : t < 9) :
    (if t ≠ 0 ∧ t ≠ goalBoard.getD i 0 then 1 else 0) ≤
      manhattanTerm goalBoard i t :=
  manhattanTerm_ge_aux i hi t ht

/-- **C3.** For every permutation board (solvable or not), the Manhattan
distance to the goal dominates the Hamming distance; neither heuristic
carries a solvability precondition. -/
theorem claim_C3 (board : List Nat)
    (hperm : board.Perm [0, 1, 2, 3, 4, 5, 6, 7, 8]) :
    hamming_distance board goalBoard ≤ manhattan_distance board goalBoard := by
  have hsub := hperm.subset
  have hlen : board.length = 9 := by simpa using hperm.length_eq
  rcases board with _ | ⟨b0, board⟩; · simp at hlen
  rcases board with _ | ⟨b1, board⟩; · simp at hlen
  rcases board with _ | ⟨b2, board⟩; · simp at hlen
  rcases board with _ | ⟨b3, board⟩; · simp at hlen
  rcases board with _ | ⟨b4, board⟩; · simp at hlen
  rcases board with _ | ⟨b5, board⟩; · simp at hlen
  rcases board with _ | ⟨b6, board⟩; · simp at hlen
  rcases board with _ | ⟨b7, board⟩; · simp at hlen
  rcases board with _ | ⟨b8, board⟩; · simp at hlen
  rcases board with _ | ⟨b9, board⟩
  swap; · simp at hlen
  have h0 : b0 < 9 := by
    have : b0 ∈ ([0, 1, 2, 3, 4, 5, 6, 7, 8] : List Nat) := hsub (by simp)
    simp at this; omega
  have h1 : b1 < 9 := by
    have : b1 ∈ ([0, 1, 2, 3, 4, 5, 6, 7, 8] : List Nat) := hsub (by simp)
    simp at this; omega
  have h2 : b2 < 9 := by
    have : b2 ∈ ([0, 1, 2, 3, 4, 5, 6, 7, 8] : List Nat) := hsub (by simp)
    simp at this; omega
  have h3 : b3 < 9 := by
    have : b3 ∈ ([0, 1, 2, 3, 4, 5, 6, 7, 8] : List Nat) := hsub (by simp)
    simp at this; omega
  have h4 : b4 < 9 := by
    have : b4 ∈ ([0, 1, 2, 3, 4, 5, 6, 7, 8] : List Nat) := hsub (by simp)
    simp at this; omega
  have h5 : b5 < 9 := by
    have : b5 ∈ ([0, 1, 2, 3, 4, 5, 6, 7, 8] : List Nat) := hsub (by simp)
    simp at this; omega
  have h6 : b6 < 9 := by
    have : b6 ∈ ([0, 1, 2, 3, 4, 5, 6, 7, 8] : List Nat) := hsub (by simp)
    simp at this; omega
  have h7 : b7 < 9 := by
    have : b7 ∈ ([0, 1, 2, 3, 4, 5, 6, 7, 8] : List Nat) := hsub (by simp)
    simp at this; omega
  have h8 : b8 < 9 := by
    have : b8 ∈ ([0, 1, 2, 3, 4, 5, 6, 7, 8] : List Nat) := hsub (by simp)
    simp at this; omega
  rw [hamming_distance, length_filter_eq_sum_map]
  have hr : List.range 9 = [0, 1, 2, 3, 4, 5, 6, 7, 8] := by decide
  rw [hr]
  simp only [manhattan_distance, List.enum, List.enumFrom, List.map,
    List.sum_cons, List.sum_nil, List.getD_cons_succ, List.getD_cons_zero,
    Bool.and_eq_true, decide_eq_true_eq]
  gcongr <;> first
    | exact manhattanTerm_ge 0 b0 (by omega) h0
    | exact manhattanTerm_ge 1 b1 (by omega) h1
    | exact manhattanTerm_ge 2 b2 (by omega) h2
    | exact manhattanTerm_ge 3 b3 (by omega) h3
    | exact manhattanTerm_ge 4 b4 (by omega) h4
    | exact manhattanTerm_ge 5 b5 (by omega) h5
    | exact manhattanTerm_ge 6 b6 (by omega) h6
    | exact manhattanTerm_ge 7 b7 (by omega) h7
    | exact manhattanTerm_ge 8 b8 (by omega) h8

/-- Witness for C3 at the non-solvable permutation `[2,1,3,4,5,6,7,8,0]`. -/
theorem claim_C3_witness :
    hamming_distance [2, 1, 3, 4, 5, 6, 7, 8, 0] goalBoard ≤
      manhattan_distance [2, 1, 3, 4, 5, 6, 7, 8, 0] goalBoard :=
  claim_C3 [2, 1, 3, 4, 5, 6, 7, 8, 0] (by decide)

/-- **C7.** `compute_h` returns the Hamming distance for `"hamming"`, the
Manhattan distance for `"manhattan"`, and for every other method string it
fails immediately with the unsupported-heuristic error surfaced to the
caller — it never falls back to a default heuristic. -/
theorem claim_C7 (board goal : List Nat) :
    compute_h board goal "hamming" = .ok (hamming_distance board goal) ∧
    compute_h board goal "manhattan" = .ok (manhattan_distance board goal) ∧
    ∀ method : String, method ≠ "hamming" → method ≠ "manhattan" →
      compute_h board goal method =
        .error ("Unsupported heuristic method: " ++ method) := by
  refine ⟨rfl, rfl, fun method h1 h2 => ?_⟩
  simp [compute_h, h1, h2]

/-- Witness for C7 at a concrete board and the method name `"foo"`. -/
theorem claim_C7_witness :
    compute_h [1, 2, 3, 4, 0, 6, 7, 5, 8] goalBoard "hamming" =
      .ok (hamming_distance [1, 2, 3, 4, 0, 6, 7, 5, 8] goalBoard) ∧
    compute_h [1, 2, 3, 4, 0, 6, 7, 5, 8] goalBoard "foo" =
      .error ("Unsupported heuristic method: " ++ "foo") :=
  ⟨(claim_C7 [1, 2, 3, 4, 0, 6, 7, 5, 8] goalBoard).1,
   (claim_C7 [1, 2, 3, 4, 0, 6, 7, 5, 8] goalBoard).2.2 "foo"
     (by decide) (by decide)⟩

/-- **C8, counterexample.** Constructing a state from the malformed board
`[0, 0, 1, 2, 3, 4, 5, 6, 7]` (a duplicated blank, not a permutation of
0..8) is NOT rejected: `PuzzleState.__init__` succeeds. -/
theorem claim_C8_counterexample :
    mkPuzzleState [0, 0, 1, 2, 3, 4, 5, 6, 7] 0 0 =
      .ok (.mk [0, 0, 1, 2, 3, 4, 5, 6, 7] 0 0 0 none) := rfl

/-- **C8, amended.** `PuzzleState.__init__` performs no permutation
validation: a board of any length, duplicates included, is accepted as long
as it contains a blank (0); only a board with no 0 fails at construction,
and that failure is the `ValueError` from the blank-index lookup, not a
`MalformedBoard` error. -/
theorem claim_C8 (board : List Nat) (g h : Nat) :
    ((∃ s, mkPuzzleState board g h = .ok s) ↔ 0 ∈ board) ∧
    (0 ∉ board →
      mkPuzzleState board g h = .error "ValueError: 0 is not in list") := by
  unfold mkPuzzleState
  constructor
  · constructor
    · rintro ⟨s, hs⟩
      by_contra hmem
      simp [hmem] at hs
    · intro hmem
      exact ⟨.mk board g h (g + h) none, by simp [hmem]⟩
  · intro hmem
    simp [hmem]

/-- Witness for C8 (amended): the malformed board `[0, 0, 1]` (wrong length
and duplicated values, yet containing a blank) is accepted, and the no-blank
board `[1, 2]` is the only rejection, with a `ValueError`. -/
theorem claim_C8_witness :
    ((∃ s, mkPuzzleState [0, 0, 1] 5 7 = .ok s) ↔ 0 ∈ [0, 0, 1]) ∧
    mkPuzzleState [1, 2] 0 0 = .error "ValueError: 0 is not in list" :=
  ⟨(claim_C8 [0, 0, 1] 5 7).1, (claim_C8 [1, 2] 0 0).2 (by decide)⟩

/-- **C9.** Two states are equal (by `__eq__`) with coinciding hashes iff
their boards are element-wise equal; `g`, `h`, `f` and the parent link play
no role, so the visited-set membership test used by the search deduplicates
by board alone. -/
theorem claim_C9 (s t : PState) :
    ((stateEq s t = true ∧ stateHash s = stateHash t) ↔ s.board = t.board) ∧
    (∀ explored : List PState, s.board = t.board →
      inExplored s explored = inExplored t explored) := by
  constructor
  · constructor
    · rintro ⟨he, -⟩
      simpa [stateEq] using he
    · intro hb
      refine ⟨by simpa [stateEq] using hb, ?_⟩
      simp [stateHash, hb]
  · intro explored hb
    simp only [inExplored, stateEq]
    congr 1
    funext u
    simp [hb]

/-- Witness for C9: two states with equal boards but different `g`, `h`,
`f`, parent are equal and hash-identical; the board-membership consequence
is instantiated on a one-element visited set. -/
theorem claim_C9_witness :
    ((stateEq (.mk goalBoard 0 0 0 none) (.mk goalBoard 3 4 7 (some (.mk [] 0 0 0 none))) = true ∧
        stateHash (.mk goalBoard 0 0 0 none) =
          stateHash (.mk goalBoard 3 4 7 (some (.mk [] 0 0 0 none)))) ↔
      PState.board (.mk goalBoard 0 0 0 none) =
        PState.board (.mk goalBoard 3 4 7 (some (.mk [] 0 0 0 none)))) ∧
    inExplored (.mk goalBoard 0 0 0 none) [.mk goalBoard 9 9 9 none] =
      inExplored (.mk goalBoard 3 4 7 (some (.mk [] 0 0 0 none)))
        [.mk goalBoard 9 9 9 none] :=
  ⟨(claim_C9 (.mk goalBoard 0 0 0 none)
      (.mk goalBoard 3 4 7 (some (.mk [] 0 0 0 none)))).1,
   (claim_C9 (.mk goalBoard 0 0 0 none)
      (.mk goalBoard 3 4 7 (some (.mk [] 0 0 0 none)))).2
     [.mk goalBoard 9 9 9 none] rfl⟩

/-- **C10.** `a_star_search` overwrites the caller-supplied start state's
`h` and `f` with the selected heuristic's value before searching, so any
pre-set `h`/`f` values have no effect on the result (path and expansion
count alike); only the board, `g` and parent of the start state matter. -/
theorem claim_C10 (b : List Nat) (g h f h' f' : Nat) (par : Option PState)
    (goal : List Nat) (method : String) (fuel : Nat) :
    a_star_search (.mk b g h f par) goal method fuel =
      a_star_search (.mk b g h' f' par) goal method fuel := rfl

/-- **C4.** Searching from a start state whose board is already the goal
returns, for either heuristic name and any positive fuel, a path of length
exactly 1 (just the re-initialized start state) and an expansion count of
exactly 0: the final pop of the goal never increments the expansion
counter. -/
theorem claim_C4 (method : String) (fuel : Nat) (s : PState)
    (hm : method = "hamming" ∨ method = "manhattan") (hf : 1 ≤ fuel)
    (hs : mkPuzzleState goalBoard 0 0 = .ok s) :
    ∃ path, a_star_search s goalBoard method fuel =
        some (.ok (some path, 0)) ∧ path.length = 1 := by
  have hsv : s = .mk goalBoard 0 0 0 none := by
    have : mkPuzzleState goalBoard 0 0 = .ok (.mk goalBoard 0 0 0 none) := rfl
    rw [this] at hs
    exact (Except.ok.inj hs).symm
  subst hsv
  obtain ⟨fuel', rfl⟩ : ∃ k, fuel = k + 1 := ⟨fuel - 1, by omega⟩
  rcases hm with rfl | rfl
  · exact ⟨[.mk goalBoard 0 0 0 none], rfl, rfl⟩
  · exact ⟨[.mk goalBoard 0 0 0 none], rfl, rfl⟩

/-- Witness for C4 with the Hamming heuristic and fuel 1. -/
theorem claim_C4_witness :
    ∃ path, a_star_search (.mk goalBoard 0 0 0 none) goalBoard "hamming" 1 =
        some (.ok (some path, 0)) ∧ path.length = 1 :=
  claim_C4 "hamming" 1 (.mk goalBoard 0 0 0 none) (Or.inl rfl)
    (by decide) rfl

/-! ## Frontier ordering (C2) -/

theorem keyLE_refl (a : Nat × Nat × Nat) : keyLE a a := by unfold keyLE; omega

theorem keyLE_of_not_keyLE {a b : Nat × Nat × Nat} (h : ¬ keyLE a b) :
    keyLE b a := by unfold keyLE at *; omega

theorem keyLE_trans {a b c : Nat × Nat × Nat} (h1 : keyLE a b)
    (h2 : keyLE b c) : keyLE a c := by unfold keyLE at *; omega

theorem popMin_eq_none {l : List Entry} : popMin l = none ↔ l = [] := by
  cases l with
  | nil => simp [popMin]
  | cons e es =>
    simp only [popMin]
    cases hp : popMin es with
    | none => simp
    | some p => rcases p with ⟨m, rest⟩; dsimp only; split <;> simp

theorem popMin_perm {l : List Entry} {e : Entry} {rest : List Entry}
    (h : popMin l = some (e, rest)) : l.Perm (e :: rest) := by
  induction l generalizing e rest with
  | nil => simp [popMin] at h
  | cons x xs ih =>
    simp only [popMin] at h
    cases hp : popMin xs with
    | none =>
      rw [hp] at h
      obtain ⟨rfl, rfl⟩ := Prod.mk.inj (Option.some.inj h)
      have : xs = [] := popMin_eq_none.mp hp
      simp [this]
    | some p =>
      rcases p with ⟨m, mrest⟩
      rw [hp] at h
      dsimp only at h
      by_cases hle : keyLE x.key m.key
      · rw [if_pos hle] at h
        obtain ⟨rfl, rfl⟩ := Prod.mk.inj (Option.some.inj h)
        exact List.Perm.refl _
      · rw [if_neg hle] at h
        obtain ⟨rfl, rfl⟩ := Prod.mk.inj (Option.some.inj h)
        exact ((ih hp).cons x).trans (List.Perm.swap _ x mrest)

theorem popMin_mem {l : List Entry} {e : Entry} {rest : List Entry}
    (h : popMin l = some (e, rest)) : e ∈ l :=
  (popMin_perm h).mem_iff.mpr (List.mem_cons_self e rest)

theorem popMin_min {l : List Entry} {e : Entry} {rest : List Entry}
    (h : popMin l = some (e, rest)) :
    ∀ x ∈ l, keyLE e.key x.key := by
  induction l generalizing e rest with
  | nil => simp [popMin] at h
  | cons y ys ih =>
    simp only [popMin] at h
    cases hp : popMin ys with
    | none =>
      rw [hp] at h
      have hys : ys = [] := popMin_eq_none.mp hp
      obtain ⟨rfl, rfl⟩ := Prod.mk.inj (Option.some.inj h)
      intro x hx
      rw [hys] at hx
      rcases List.mem_singleton.mp hx with rfl
      exact keyLE_refl _
    | some p =>
      rcases p with ⟨m, mrest⟩
      rw [hp] at h
      dsimp only at h
      by_cases hle : keyLE y.key m.key
      · rw [if_pos hle] at h
        obtain ⟨rfl, rfl⟩ := Prod.mk.inj (Option.some.inj h)
        intro x hx
        rcases List.mem_cons.mp hx with rfl | hx
        · exact keyLE_refl _
        · exact keyLE_trans hle (ih hp x hx)
      · rw [if_neg hle] at h
        obtain ⟨rfl, rfl⟩ := Prod.mk.inj (Option.some.inj h)
        intro x hx
        rcases List.mem_cons.mp hx with rfl | hx
        · exact keyLE_of_not_keyLE hle
        · exact ih hp x hx

/-- **C2.** Every iteration of the A* loop removes from the frontier an
entry whose `(f, h, counter)` triple is minimal — lowest `f` first, then
lowest `h`, then lowest (earliest, FIFO) counter — and under the search's
counter invariant that minimum is strict (unique); pushing neighbors
preserves the invariant with an ever-increasing, never-reused counter, and
the initial single-entry frontier satisfies it. -/
theorem claim_C2 :
    (∀ (frontier : List Entry) (counter : Nat) (e : Entry)
        (rest : List Entry), counterInv frontier counter →
      popMin frontier = some (e, rest) →
      e ∈ frontier ∧ frontier.Perm (e :: rest) ∧
        (∀ x ∈ frontier, keyLE e.key x.key) ∧
        (∀ x ∈ rest, keyLE e.key x.key ∧ e.key ≠ x.key)) ∧
    (∀ goal method current nbs explored frontier counter f' c',
      counterInv frontier counter →
      pushNeighbors goal method current nbs explored frontier counter =
        .ok (f', c') →
      counterInv f' c' ∧ counter ≤ c') ∧
    (∀ fhc : Nat × Nat × PState, counterInv [(fhc.1, fhc.2.1, 0, fhc.2.2)] 1) := by
  refine ⟨?_, ?_, ?_⟩
  · intro frontier counter e rest hinv hpop
    have hperm := popMin_perm hpop
    have hpair : (e :: rest).Pairwise (fun a b => a.2.2.1 ≠ b.2.2.1) :=
      (hperm.pairwise_iff (fun h => Ne.symm h)).mp hinv.2
    refine ⟨popMin_mem hpop, hperm, popMin_min hpop, fun x hx => ?_⟩
    refine ⟨popMin_min hpop x (hperm.mem_iff.mpr (List.mem_cons_of_mem _ hx)), ?_⟩
    have hne : e.2.2.1 ≠ x.2.2.1 := (List.pairwise_cons.mp hpair).1 x hx
    intro hkey
    exact hne (congrArg (fun k => k.2.2) hkey)
  · intro goal method current nbs explored frontier counter f' c' hinv hpush
    induction nbs generalizing frontier counter with
    | nil =>
      simp only [pushNeighbors] at hpush
      obtain ⟨rfl, rfl⟩ := Prod.mk.inj (Except.ok.inj hpush)
      exact ⟨hinv, le_refl _⟩
    | cons nb rest ih =>
      simp only [pushNeighbors] at hpush
      by_cases hmem : inExplored nb explored
      · rw [if_pos hmem] at hpush
        exact ih _ _ hinv hpush
      · rw [if_neg hmem] at hpush
        cases hch : compute_h nb.board goal method with
        | error err => rw [hch] at hpush; cases hpush
        | ok hv =>
          rw [hch] at hpush
          dsimp only at hpush
          have hinv' : counterInv
              (frontier ++ [(current.g + 1 + hv, hv, counter,
                PState.mk nb.board (current.g + 1) hv (current.g + 1 + hv)
                  (some current))]) (counter + 1) := by
            constructor
            · intro x hx
              rcases List.mem_append.mp hx with hx | hx
              · exact Nat.lt_succ_of_lt (hinv.1 x hx)
              · rcases List.mem_singleton.mp hx with rfl
                exact Nat.lt_succ_self _
            · rw [List.pairwise_append]
              refine ⟨hinv.2, List.pairwise_singleton _ _, ?_⟩
              intro a ha b hb
              rcases List.mem_singleton.mp hb with rfl
              exact Nat.ne_of_lt (hinv.1 a ha)
          have := ih _ _ hinv' hpush
          exact ⟨this.1, le_trans (Nat.le_succ _) this.2⟩
  · intro fhc
    exact ⟨fun e he => by
        rcases List.mem_singleton.mp he with rfl
        exact Nat.zero_lt_one,
      List.pairwise_singleton _ _⟩

/-- Witness for C2: a concrete two-entry frontier where the second entry
wins on `f`, plus the discharged counter invariant. -/
theorem claim_C2_witness :
    ((1, 5, 3, PState.mk [2] 0 0 0 none) ∈
        ([(2, 1, 5, .mk [1] 0 0 0 none), (1, 5, 3, .mk [2] 0 0 0 none)] :
          List Entry) ∧
      ([(2, 1, 5, .mk [1] 0 0 0 none), (1, 5, 3, .mk [2] 0 0 0 none)] :
          List Entry).Perm
        ((1, 5, 3, .mk [2] 0 0 0 none) :: [(2, 1, 5, .mk [1] 0 0 0 none)]) ∧
      (∀ x ∈ ([(2, 1, 5, .mk [1] 0 0 0 none),
          (1, 5, 3, .mk [2] 0 0 0 none)] : List Entry),
        keyLE (Entry.key (1, 5, 3, .mk [2] 0 0 0 none)) x.key) ∧
      (∀ x ∈ ([(2, 1, 5, .mk [1] 0 0 0 none)] : List Entry),
        keyLE (Entry.key (1, 5, 3, .mk [2] 0 0 0 none)) x.key ∧
          Entry.key (1, 5, 3, .mk [2] 0 0 0 none) ≠ x.key)) :=
  claim_C2.1
    [(2, 1, 5, .mk [1] 0 0 0 none), (1, 5, 3, .mk [2] 0 0 0 none)] 6
    (1, 5, 3, .mk [2] 0 0 0 none) [(2, 1, 5, .mk [1] 0 0 0 none)]
    ⟨fun e he => by
        rcases List.mem_cons.mp he with rfl | he
        · decide
        · rcases List.mem_singleton.mp he with rfl; decide,
      by
        refine List.pairwise_cons.mpr ⟨?_, List.pairwise_singleton _ _⟩
        intro b hb
        rcases List.mem_singleton.mp hb with rfl
        decide⟩
    rfl

/-! ## Helper lemmas: swaps, neighbors -/

theorem length_swapCells (b : List Nat) (i j : Nat) :
    (swapCells b i j).length = b.length := by
  simp [swapCells]

/-- Setting and remembering the displaced element preserves counts
(additively, to stay in `Nat`). -/
theorem count_set_add (l : List Nat) (k x a : Nat) (hk : k < l.length) :
    (l.set k x).count a + (if l.getD k 0 = a then 1 else 0) =
      l.count a + (if x = a then 1 else 0) := by
  induction l generalizing k with
  | nil => simp at hk
  | cons y ys ih =>
    cases k with
    | zero =>
      simp only [List.set, List.getD_cons_zero, List.count_cons]
      by_cases hy : y = a <;> by_cases hx : x = a <;>
        simp [hy, hx]
    | succ k =>
      have hk' : k < ys.length := by simpa using hk
      have ih' := ih k hk'
      simp only [List.set, List.getD_cons_succ, List.count_cons]
      simp only [List.getD_eq_getElem?_getD] at ih' ⊢
      by_cases hy : y = a <;> simp [hy] <;> omega

theorem swapCells_perm (b : List Nat) (i j : Nat) (hi : i < b.length)
    (hj : j < b.length) : (swapCells b i j).Perm b := by
  rcases eq_or_ne i j with rfl | hij
  · have hset : b.set i (b.getD i 0) = b := by
      apply List.ext_getElem
      · simp
      · intro k h1 h2
        rcases eq_or_ne i k with rfl | hne
        · rw [List.getElem_set_self, List.getD_eq_getElem _ _ hi]
        · exact List.getElem_set_ne hne _
    unfold swapCells
    rw [List.set_set, hset]
  · rw [List.perm_iff_count]
    intro a
    have houter := count_set_add (b.set i (b.getD j 0)) j (b.getD i 0) a
      (by simpa using hj)
    have hinner := count_set_add b i (b.getD j 0) a hi
    have hmid : (b.set i (b.getD j 0)).getD j 0 = b.getD j 0 := by
      rw [List.getD_eq_getElem _ _ (by simpa using hj),
        List.getElem_set_ne hij]
      exact (List.getD_eq_getElem _ _ hj).symm
    rw [hmid] at houter
    unfold swapCells
    omega

theorem targetsUDLR_lt (bi : Nat) (hbi : bi < 9) :
    ∀ q ∈ targetsUDLR bi, q < 9 := by
  revert bi
  decide

theorem targetsUDLR_length (bi : Nat) (hbi : bi < 9) :
    (targetsUDLR bi).length ≤ 4 := by
  revert bi
  decide

/-- The blank index of a permutation board is in range. -/
theorem blankIdx_lt (b : List Nat) (hperm : permBoard b) : b.indexOf 0 < 9 := by
  have hmem : (0 : Nat) ∈ b := hperm.mem_iff.mpr (by norm_num)
  have h1 := List.indexOf_lt_length.mpr hmem
  have h2 : b.length = 9 := by simpa using hperm.length_eq
  omega

/-- What `neighbors` produces on a permutation board: the up/down/left/right
swap targets, in that order. -/
theorem neighbors_eq (s : PState)
    (hperm : permBoard s.board) :
    s.neighbors = (targetsUDLR (s.board.indexOf 0)).map
      (fun q => PState.mk (swapCells s.board (s.board.indexOf 0) q)
        (s.g + 1) 0 (s.g + 1) none) := by
  have hbi9 := blankIdx_lt s.board hperm
  obtain ⟨bi, hbi⟩ : ∃ bi, s.board.indexOf 0 = bi := ⟨_, rfl⟩
  rw [hbi] at hbi9 ⊢
  simp only [PState.neighbors, PState.blank_index, hbi, moveDeltas]
  interval_cases bi <;> rfl

/-- The successor boards depend only on the board. -/
theorem neighbors_map_board (s : PState) :
    s.neighbors.map PState.board = moveBoards s.board := by
  simp only [moveBoards, PState.neighbors, PState.blank_index, PState.board,
    PState.g, List.map_filterMap]
  apply List.filterMap_congr
  intro d hd
  split <;> simp [PState.board]

theorem neighbors_length_le (s : PState) : s.neighbors.length ≤ 4 :=
  List.length_filterMap_le _ _

/-- A legal move sends a permutation board to a permutation board. -/
theorem adjStep_perm {b b' : List Nat} (hperm : permBoard b)
    (hstep : adjStep b b') : permBoard b' := by
  have hb' : b' ∈ moveBoards b := hstep
  have hnb := neighbors_map_board (PState.mk b 0 0 0 none)
  simp only [PState.board] at hnb
  rw [← hnb] at hb'
  rw [neighbors_eq _ (by simpa [PState.board] using hperm)] at hb'
  simp only [List.map_map, List.mem_map, PState.board, PState.g] at hb'
  obtain ⟨q, hq, rfl⟩ := hb'
  have hlen : b.length = 9 := by simpa using hperm.length_eq
  have hbi := blankIdx_lt b hperm
  have hq9 := targetsUDLR_lt _ hbi q hq
  exact (swapCells_perm b _ q (by omega) (by omega)).trans hperm

/-- Moves preserve permutation boards along any reachable sequence. -/
theorem reachable_perm {b b' : List Nat} (hperm : permBoard b)
    (hreach : Reachable b b') : permBoard b' := by
  induction hreach with
  | refl => exact hperm
  | tail _ hstep ih => exact adjStep_perm ih hstep

/-! ## Helper lemmas: paths, the explored set, pushing -/

theorem rootState_parent_none {s : PState} (h : s.parent = none) :
    rootState s = s := by
  cases s with
  | mk b g hv f p =>
    cases p with
    | none => rfl
    | some p => simp [PState.parent] at h

theorem pathToRoot_head (s : PState) : (pathToRoot s).head? = some s := by
  cases s with
  | mk b g hv f p => cases p <;> rfl

theorem pathToRoot_ne_nil (s : PState) : pathToRoot s ≠ [] := by
  intro h
  have := pathToRoot_head s
  rw [h] at this
  cases this

theorem pathToRoot_getLast : ∀ s : PState,
    (pathToRoot s).getLast? = some (rootState s)
  | .mk b g hv f none => rfl
  | .mk b g hv f (some p) => by
    show (PState.mk b g hv f (some p) :: pathToRoot p).getLast? = _
    have hne := pathToRoot_ne_nil p
    cases hp : pathToRoot p with
    | nil => exact absurd hp hne
    | cons x xs =>
      rw [List.getLast?_cons_cons, ← hp, pathToRoot_getLast p]
      rfl

theorem reconstruct_head (s : PState) :
    (reconstruct_path s).head? = some (rootState s) := by
  rw [reconstruct_path, List.head?_reverse]
  exact pathToRoot_getLast s

theorem reconstruct_getLast (s : PState) :
    (reconstruct_path s).getLast? = some s := by
  rw [reconstruct_path, List.getLast?_reverse]
  exact pathToRoot_head s

theorem inExplored_false_iff (s : PState) (ex : List PState) :
    inExplored s ex = false ↔ ∀ t ∈ ex, t.board ≠ s.board := by
  rw [inExplored, List.any_eq_false]
  constructor
  · intro h t ht
    have := h t ht
    simpa [stateEq] using this
  · intro h t ht
    simpa [stateEq] using h t ht

theorem inExplored_true_iff (s : PState) (ex : List PState) :
    inExplored s ex = true ↔ ∃ t ∈ ex, t.board = s.board := by
  rw [inExplored, List.any_eq_true]
  constructor
  · rintro ⟨t, ht, he⟩
    exact ⟨t, ht, by simpa [stateEq] using he⟩
  · rintro ⟨t, ht, he⟩
    exact ⟨t, ht, by simpa [stateEq] using he⟩

theorem frontierBoards_perm {f₁ f₂ : List Entry} (h : f₁.Perm f₂) :
    (frontierBoards f₁).Perm (frontierBoards f₂) := h.map _

/-- Full description of one neighbor-push pass: the frontier grows by a
block of entries, one per not-yet-explored neighbor, each wrapping the
re-costed neighbor with its parent link set to `current`. -/
theorem pushNeighbors_spec (goal : List Nat) (method : String)
    (current : PState) :
    ∀ (nbs explored : List PState) (frontier : List Entry) (counter : Nat)
      (f' : List Entry) (c' : Nat),
    pushNeighbors goal method current nbs explored frontier counter =
      .ok (f', c') →
    ∃ pushed : List Entry,
      f' = frontier ++ pushed ∧
      pushed.length ≤ nbs.length ∧
      (∀ e ∈ pushed, ∃ nb ∈ nbs, ∃ hv, Entry.state e =
        PState.mk nb.board (current.g + 1) hv (current.g + 1 + hv)
          (some current)) ∧
      (∀ nb ∈ nbs, inExplored nb explored = false →
        ∃ e ∈ pushed, (Entry.state e).board = nb.board) := by
  intro nbs
  induction nbs with
  | nil =>
    intro explored frontier counter f' c' hpush
    simp only [pushNeighbors] at hpush
    obtain ⟨rfl, rfl⟩ := Prod.mk.inj (Except.ok.inj hpush)
    exact ⟨[], by simp, by simp, by simp, by simp⟩
  | cons nb rest ih =>
    intro explored frontier counter f' c' hpush
    simp only [pushNeighbors] at hpush
    by_cases hmem : inExplored nb explored
    · rw [if_pos hmem] at hpush
      obtain ⟨pushed, rfl, hlen, hstates, hcover⟩ :=
        ih explored frontier counter f' c' hpush
      refine ⟨pushed, rfl, by simpa using Nat.le_succ_of_le hlen, ?_, ?_⟩
      · intro e he
        obtain ⟨nb', hnb', hv, hst⟩ := hstates e he
        exact ⟨nb', List.mem_cons_of_mem _ hnb', hv, hst⟩
      · intro nb' hnb' hfalse
        rcases List.mem_cons.mp hnb' with rfl | hnb'
        · rw [hmem] at hfalse; cases hfalse
        · exact hcover nb' hnb' hfalse
    · rw [if_neg hmem] at hpush
      cases hch : compute_h nb.board goal method with
      | error err => rw [hch] at hpush; cases hpush
      | ok hv =>
        rw [hch] at hpush
        dsimp only at hpush
        obtain ⟨pushed, hf, hlen, hstates, hcover⟩ :=
          ih explored _ _ f' c' hpush
        refine ⟨(current.g + 1 + hv, hv, counter,
          PState.mk nb.board (current.g + 1) hv (current.g + 1 + hv)
            (some current)) :: pushed, by simpa using hf, by simpa using hlen,
          ?_, ?_⟩
        · intro e he
          rcases List.mem_cons.mp he with rfl | he
          · exact ⟨nb, List.mem_cons_self _ _, hv, rfl⟩
          · obtain ⟨nb', hnb', hv', hst⟩ := hstates e he
            exact ⟨nb', List.mem_cons_of_mem _ hnb', hv', hst⟩
        · intro nb' hnb' hfalse
          rcases List.mem_cons.mp hnb' with rfl | hnb'
          · exact ⟨_, List.mem_cons_self _ _, rfl⟩
          · obtain ⟨e, he, hb⟩ := hcover nb' hnb' hfalse
            exact ⟨e, List.mem_cons_of_mem _ he, hb⟩

/-- With a recognized heuristic name, a neighbor-push pass never raises. -/
theorem pushNeighbors_ok (goal : List Nat) (method : String)
    (hm : method = "hamming" ∨ method = "manhattan") (current : PState) :
    ∀ (nbs explored : List PState) (frontier : List Entry) (counter : Nat),
    ∃ f' c', pushNeighbors goal method current nbs explored frontier counter =
      .ok (f', c') := by
  intro nbs
  induction nbs with
  | nil => intro explored frontier counter; exact ⟨frontier, counter, rfl⟩
  | cons nb rest ih =>
    intro explored frontier counter
    simp only [pushNeighbors]
    by_cases hmem : inExplored nb explored
    · rw [if_pos hmem]; exact ih explored frontier counter
    · rw [if_neg hmem]
      have hch : ∃ hv, compute_h nb.board goal method = .ok hv := by
        rcases hm with rfl | rfl
        · exact ⟨hamming_distance nb.board goal, rfl⟩
        · exact ⟨manhattan_distance nb.board goal, rfl⟩
      obtain ⟨hv, hch⟩ := hch
      rw [hch]
      exact ih explored _ _

/-- A duplicate-free set of permutation boards cannot outgrow the number of
permutations of 0..8. -/
theorem explored_length_le (explored : List PState)
    (hvalid : ∀ s ∈ explored, permBoard s.board)
    (hnodup : (explored.map PState.board).Nodup) :
    explored.length ≤ NBOARDS := by
  have h1 : explored.length = (explored.map PState.board).length := by simp
  have h2 : (explored.map PState.board).toFinset.card =
      (explored.map PState.board).length := List.toFinset_card_of_nodup hnodup
  have h3 : (explored.map PState.board).toFinset ⊆
      (([0, 1, 2, 3, 4, 5, 6, 7, 8] : List Nat).permutations).toFinset := by
    intro b hb
    rw [List.mem_toFinset] at hb ⊢
    obtain ⟨s, hs, rfl⟩ := List.mem_map.mp hb
    exact List.mem_permutations.mpr (hvalid s hs)
  have h4 := Finset.card_le_card h3
  have h5 := (([0, 1, 2, 3, 4, 5, 6, 7, 8] : List Nat).permutations).toFinset_card_le
  rw [NBOARDS]
  omega

theorem neighbor_board_perm {s t : PState} (hperm : permBoard s.board)
    (ht : t ∈ s.neighbors) : permBoard t.board := by
  refine adjStep_perm hperm ?_
  rw [adjStep, ← neighbors_map_board s]
  exact List.mem_map_of_mem _ ht

theorem neighbor_adjStep {s t : PState} (ht : t ∈ s.neighbors) :
    adjStep s.board t.board := by
  rw [adjStep, ← neighbors_map_board s]
  exact List.mem_map_of_mem _ ht

/-! ## Loop invariant preservation -/

theorem LoopInv_init (start' : PState) (goal : List Nat)
    (hvalid : permBoard start'.board) (hroot : start'.parent = none)
    (f0 h0 c0 : Nat) :
    LoopInv start' goal [(f0, h0, c0, start')] [] := by
  refine ⟨?_, ?_, ?_, ?_, ?_, ?_, ?_, ?_⟩
  · intro e he
    rcases List.mem_singleton.mp he with rfl
    exact hvalid
  · intro s hs; cases hs
  · simp
  · simp
  · intro s hs; cases hs
  · right; simp [frontierBoards, Entry.state]
  · intro e he
    rcases List.mem_singleton.mp he with rfl
    exact rootState_parent_none hroot
  · intro e he
    rcases List.mem_singleton.mp he with rfl
    exact Relation.ReflTransGen.refl

theorem LoopInv_skip {start' : PState} {goal : List Nat}
    {frontier rest : List Entry} {explored : List PState} {e : Entry}
    (hinv : LoopInv start' goal frontier explored)
    (hpop : popMin frontier = some (e, rest))
    (hin : inExplored (Entry.state e) explored = true) :
    LoopInv start' goal rest explored := by
  have hperm := popMin_perm hpop
  have hsub : ∀ x ∈ rest, x ∈ frontier := fun x hx =>
    hperm.mem_iff.mpr (List.mem_cons_of_mem _ hx)
  have hboards : ∀ b ∈ frontierBoards frontier,
      b ∈ explored.map PState.board ∨ b ∈ frontierBoards rest := by
    intro b hb
    have := (frontierBoards_perm hperm).mem_iff.mp hb
    rcases List.mem_cons.mp this with rfl | hbr
    · left
      obtain ⟨t, ht, hteq⟩ := (inExplored_true_iff _ _).mp hin
      exact List.mem_map.mpr ⟨t, ht, hteq⟩
    · right; exact hbr
  refine ⟨fun x hx => hinv.frontierValid x (hsub x hx), hinv.exploredValid,
    hinv.exploredNodup, hinv.goalNotExplored, ?_, ?_,
    fun x hx => hinv.roots x (hsub x hx), fun x hx => hinv.reach x (hsub x hx)⟩
  · intro s hs b hb
    rcases hinv.closure s hs b hb with hl | hr
    · exact Or.inl hl
    · exact hboards b hr
  · rcases hinv.startMem with hl | hr
    · exact Or.inl hl
    · exact hboards _ hr

theorem LoopInv_expand {start' : PState} {goal : List Nat}
    {frontier rest f' : List Entry} {explored : List PState} {e : Entry}
    {method : String} {counter c' : Nat}
    (hinv : LoopInv start' goal frontier explored)
    (hpop : popMin frontier = some (e, rest))
    (hgoal : (Entry.state e).board ≠ goal)
    (hnew : inExplored (Entry.state e) explored = false)
    (hpush : pushNeighbors goal method (Entry.state e)
      (Entry.state e).neighbors (Entry.state e :: explored) rest counter =
        .ok (f', c')) :
    LoopInv start' goal f' (Entry.state e :: explored) := by
  set current := Entry.state e with hcur
  have hperm := popMin_perm hpop
  have hmemf := popMin_mem hpop
  have hcurperm : permBoard current.board := hinv.frontierValid e hmemf
  have hsub : ∀ x ∈ rest, x ∈ frontier := fun x hx =>
    hperm.mem_iff.mpr (List.mem_cons_of_mem _ hx)
  have hnotin : ∀ t ∈ explored, t.board ≠ current.board :=
    (inExplored_false_iff _ _).mp hnew
  obtain ⟨pushed, rfl, hlen, hstates, hcover⟩ :=
    pushNeighbors_spec goal method current _ _ _ _ _ _ hpush
  have hfb : ∀ b ∈ frontierBoards frontier,
      b ∈ (current :: explored).map PState.board ∨
        b ∈ frontierBoards (rest ++ pushed) := by
    intro b hb
    have := (frontierBoards_perm hperm).mem_iff.mp hb
    rcases List.mem_cons.mp this with rfl | hbr
    · left; exact List.mem_cons_self _ _
    · right
      rw [frontierBoards, List.map_append]
      exact List.mem_append_left _ hbr
  refine ⟨?_, ?_, ?_, ?_, ?_, ?_, ?_, ?_⟩
  · intro x hx
    rcases List.mem_append.mp hx with hx | hx
    · exact hinv.frontierValid x (hsub x hx)
    · obtain ⟨nb, hnb, hv, hst⟩ := hstates x hx
      have hbd : (PState.mk nb.board (current.g + 1) hv
          (current.g + 1 + hv) (some current)).board = nb.board := rfl
      rw [hst, hbd]
      exact neighbor_board_perm hcurperm hnb
  · intro s hs
    rcases List.mem_cons.mp hs with rfl | hs
    · exact hcurperm
    · exact hinv.exploredValid s hs
  · rw [List.map_cons]
    refine List.Nodup.cons ?_ hinv.exploredNodup
    intro hmem
    obtain ⟨t, ht, hteq⟩ := List.mem_map.mp hmem
    exact hnotin t ht hteq
  · rw [List.map_cons]
    intro hmem
    rcases List.mem_cons.mp hmem with hgl | hmem
    · exact hgoal hgl.symm
    · exact hinv.goalNotExplored hmem
  · intro s hs b hb
    rcases List.mem_cons.mp hs with rfl | hs
    · -- the freshly expanded state: each neighbor board is explored or pushed
      rw [← neighbors_map_board] at hb
      obtain ⟨nb, hnb, rfl⟩ := List.mem_map.mp hb
      by_cases hnbex : inExplored nb (current :: explored) = true
      · left
        obtain ⟨t, ht, hteq⟩ := (inExplored_true_iff _ _).mp hnbex
        exact List.mem_map.mpr ⟨t, ht, hteq⟩
      · right
        obtain ⟨x, hx, hxb⟩ := hcover nb hnb (by simpa using hnbex)
        rw [frontierBoards, List.map_append]
        refine List.mem_append_right _ ?_
        exact List.mem_map.mpr ⟨x, hx, hxb⟩
    · rcases hinv.closure s hs b hb with hl | hr
      · exact Or.inl (List.mem_cons_of_mem _ hl)
      · exact hfb b hr
  · rcases hinv.startMem with hl | hr
    · exact Or.inl (List.mem_cons_of_mem _ hl)
    · exact hfb _ hr
  · intro x hx
    rcases List.mem_append.mp hx with hx | hx
    · exact hinv.roots x (hsub x hx)
    · obtain ⟨nb, hnb, hv, hst⟩ := hstates x hx
      rw [hst]
      show rootState (PState.mk _ _ _ _ (some current)) = start'
      have : rootState (PState.mk nb.board (current.g + 1) hv
          (current.g + 1 + hv) (some current)) = rootState current := rfl
      rw [this]
      exact hinv.roots e hmemf
  · intro x hx
    rcases List.mem_append.mp hx with hx | hx
    · exact hinv.reach x (hsub x hx)
    · obtain ⟨nb, hnb, hv, hst⟩ := hstates x hx
      rw [hst]
      show Reachable start'.board (PState.mk _ _ _ _ (some current)).board
      have hb : (PState.mk nb.board (current.g + 1) hv
          (current.g + 1 + hv) (some current)).board = nb.board := rfl
      rw [hb]
      exact (hinv.reach e hmemf).tail (neighbor_adjStep hnb)

/-! ## Termination: enough fuel always exists -/

/-- The loop measure: explored states strictly grow (bounded by the number
of permutation boards) or the frontier strictly shrinks. -/
def loopMeasure (frontier : List Entry) (explored : List PState) : Nat :=
  5 * (NBOARDS - explored.length) + frontier.length

theorem aStarLoop_total (start' : PState) (goal : List Nat) (method : String) :
    ∀ (fuel : Nat) (frontier : List Entry) (explored : List PState)
      (counter count : Nat),
    LoopInv start' goal frontier explored →
    loopMeasure frontier explored < fuel →
    ∃ r, aStarLoop goal method fuel frontier explored counter count = some r := by
  intro fuel
  induction fuel with
  | zero =>
    intro frontier explored counter count hinv hm
    exact absurd hm (Nat.not_lt_zero _)
  | succ fuel ih =>
    intro frontier explored counter count hinv hm
    cases hpop : popMin frontier with
    | none => exact ⟨.ok (none, count), by simp [aStarLoop, hpop]⟩
    | some pr =>
      rcases pr with ⟨e, rest⟩
      have hflen : frontier.length = rest.length + 1 := by
        simpa using (popMin_perm hpop).length_eq
      by_cases hgoal : (Entry.state e).board = goal
      · exact ⟨.ok (some (reconstruct_path (Entry.state e)), count),
          by simp [aStarLoop, hpop, hgoal]⟩
      · by_cases hin : inExplored (Entry.state e) explored = true
        · obtain ⟨r, hr⟩ := ih rest explored counter count
            (LoopInv_skip hinv hpop hin)
            (by unfold loopMeasure at hm ⊢; omega)
          exact ⟨r, by simp [aStarLoop, hpop, hgoal, hin, hr]⟩
        · have hin' : inExplored (Entry.state e) explored = false := by
            simpa using hin
          cases hpush : pushNeighbors goal method (Entry.state e)
              (Entry.state e).neighbors (Entry.state e :: explored)
              rest counter with
          | error err =>
            exact ⟨.error err,
              by simp [aStarLoop, hpop, hgoal, hin', hpush]⟩
          | ok pr2 =>
            rcases pr2 with ⟨f', c'⟩
            have hinv' := LoopInv_expand hinv hpop hgoal hin' hpush
            obtain ⟨pushed, rfl, hplen, -, -⟩ :=
              pushNeighbors_spec goal method _ _ _ _ _ _ _ hpush
            have hnb4 : (Entry.state e).neighbors.length ≤ 4 :=
              neighbors_length_le _
            have hexp1 : (Entry.state e :: explored).length ≤ NBOARDS :=
              explored_length_le _ hinv'.exploredValid hinv'.exploredNodup
            have hm' : loopMeasure (rest ++ pushed)
                (Entry.state e :: explored) < fuel := by
              unfold loopMeasure at hm ⊢
              rw [List.length_append]
              simp only [List.length_cons] at hexp1 ⊢
              omega
            obtain ⟨r, hr⟩ := ih (rest ++ pushed) (Entry.state e :: explored)
              c' (count + 1) hinv' hm'
            exact ⟨r, by simp [aStarLoop, hpop, hgoal, hin', hpush, hr]⟩

/-! ## Inversion parity is invariant under legal moves -/

theorem inversions_cons (x : Nat) (xs : List Nat) :
    inversions (x :: xs) = xs.countP (fun y => y < x) + inversions xs := rfl

theorem inversions_append (A B : List Nat) :
    inversions (A ++ B) = inversions A + inversions B + crossInv A B := by
  induction A with
  | nil => simp [inversions, crossInv]
  | cons a A ih =>
    simp only [List.cons_append, inversions_cons, ih, List.countP_append,
      crossInv, List.map_cons, List.sum_cons]
    omega

theorem crossInv_congr {B₁ B₂ : List Nat} (A : List Nat)
    (h : ∀ a, B₁.countP (fun b => b < a) = B₂.countP (fun b => b < a)) :
    crossInv A B₁ = crossInv A B₂ := by
  unfold crossInv
  congr 1
  exact List.map_congr_left (fun a _ => h a)

theorem parity_mid (A B : List Nat) (x y t : Nat) (hx : x ≠ t) (hy : y ≠ t) :
    inversions (A ++ x :: y :: t :: B) % 2 =
      inversions (A ++ t :: x :: y :: B) % 2 := by
  rw [inversions_append, inversions_append]
  have hcross : crossInv A (x :: y :: t :: B) = crossInv A (t :: x :: y :: B) :=
    crossInv_congr A (fun a => by simp only [List.countP_cons]; omega)
  rw [hcross]
  simp only [inversions_cons, List.countP_cons, decide_eq_true_eq]
  have e1 : (if t < x then 1 else 0) + (if x < t then 1 else 0) = 1 := by
    split_ifs <;> omega
  have e2 : (if t < y then 1 else 0) + (if y < t then 1 else 0) = 1 := by
    split_ifs <;> omega
  omega

theorem filter_ne_zero_swap_adj (X Z : List Nat) (a c : Nat)
    (hac : a = 0 ∨ c = 0) :
    (X ++ c :: a :: Z).filter (fun x => x ≠ 0) =
      (X ++ a :: c :: Z).filter (fun x => x ≠ 0) := by
  rcases hac with rfl | rfl
  · by_cases hc : c = 0
    · subst hc; rfl
    · simp [List.filter_append, List.filter_cons, hc]
  · by_cases ha : a = 0
    · subst ha; rfl
    · simp [List.filter_append, List.filter_cons, ha]

/-- Swapping the blank with a horizontally adjacent tile leaves the
non-blank sequence unchanged, hence solvability unchanged. -/
theorem solvable_swap_adj (X Z : List Nat) (a c : Nat) (hac : a = 0 ∨ c = 0) :
    is_solvable (X ++ c :: a :: Z) = is_solvable (X ++ a :: c :: Z) := by
  unfold is_solvable
  rw [filter_ne_zero_swap_adj X Z a c hac]

/-- Swapping the blank with a vertically adjacent tile lets the moved tile
jump over exactly two (non-blank) tiles, preserving inversion parity. -/
theorem solvable_swap_vert (X Z : List Nat) (a u v c : Nat)
    (hac : a = 0 ∨ c = 0) (hu : u ≠ 0) (hv : v ≠ 0) (huc : u ≠ c)
    (hvc : v ≠ c) (hua : u ≠ a) (hva : v ≠ a) :
    is_solvable (X ++ c :: u :: v :: a :: Z) =
      is_solvable (X ++ a :: u :: v :: c :: Z) := by
  unfold is_solvable
  rcases hac with rfl | rfl
  · by_cases hc : c = 0
    · subst hc; rfl
    · have hfL : (X ++ c :: u :: v :: 0 :: Z).filter (fun x => x ≠ 0) =
          X.filter (fun x => x ≠ 0) ++
            c :: u :: v :: Z.filter (fun x => x ≠ 0) := by
        simp [List.filter_append, List.filter_cons, hc, hu, hv]
      have hfR : (X ++ 0 :: u :: v :: c :: Z).filter (fun x => x ≠ 0) =
          X.filter (fun x => x ≠ 0) ++
            u :: v :: c :: Z.filter (fun x => x ≠ 0) := by
        simp [List.filter_append, List.filter_cons, hc, hu, hv]
      rw [hfL, hfR]
      exact congrArg (fun n => n == 0) (parity_mid _ _ u v c huc hvc).symm
  · by_cases ha : a = 0
    · subst ha; rfl
    · have hfL : (X ++ 0 :: u :: v :: a :: Z).filter (fun x => x ≠ 0) =
          X.filter (fun x => x ≠ 0) ++
            u :: v :: a :: Z.filter (fun x => x ≠ 0) := by
        simp [List.filter_append, List.filter_cons, ha, hu, hv]
      have hfR : (X ++ a :: u :: v :: 0 :: Z).filter (fun x => x ≠ 0) =
          X.filter (fun x => x ≠ 0) ++
            a :: u :: v :: Z.filter (fun x => x ≠ 0) := by
        simp [List.filter_append, List.filter_cons, ha, hu, hv]
      rw [hfL, hfR]
      exact congrArg (fun n => n == 0) (parity_mid _ _ u v a hua hva)

theorem swapCells_comm (b : List Nat) (i j : Nat) (hij : i ≠ j) :
    swapCells b i j = swapCells b j i := by
  unfold swapCells
  rw [List.set_comm _ _ _ hij]

theorem swap_decomp_adj (X Z : List Nat) (a c : Nat) :
    swapCells (X ++ a :: c :: Z) X.length (X.length + 1) = X ++ c :: a :: Z := by
  unfold swapCells
  have h0 : (X ++ a :: c :: Z).getD X.length 0 = a := by
    rw [List.getD_eq_getElem _ _ (by simp), List.getElem_append_right (le_refl _)]
    simp
  have h1 : (X ++ a :: c :: Z).getD (X.length + 1) 0 = c := by
    rw [List.getD_eq_getElem _ _
        (by simp only [List.length_append, List.length_cons]; omega),
      List.getElem_append_right (by omega)]
    simp
  rw [h0, h1, List.set_append_right _ _ (le_refl _),
    List.set_append_right _ _ (by omega : X.length ≤ X.length + 1)]
  simp

theorem swap_decomp_vert (X Z : List Nat) (a u v c : Nat) :
    swapCells (X ++ a :: u :: v :: c :: Z) X.length (X.length + 3) =
      X ++ c :: u :: v :: a :: Z := by
  unfold swapCells
  have h0 : (X ++ a :: u :: v :: c :: Z).getD X.length 0 = a := by
    rw [List.getD_eq_getElem _ _ (by simp), List.getElem_append_right (le_refl _)]
    simp
  have h3 : (X ++ a :: u :: v :: c :: Z).getD (X.length + 3) 0 = c := by
    rw [List.getD_eq_getElem _ _
        (by simp only [List.length_append, List.length_cons]; omega),
      List.getElem_append_right (by omega)]
    simp
  rw [h0, h3, List.set_append_right _ _ (le_refl _),
    List.set_append_right _ _ (by omega : X.length ≤ X.length + 3)]
  simp

/-- The four possible swap targets, arithmetically (checked case by case). -/
theorem targetsUDLR_mem_aux :
    ∀ p < 9, ∀ q < 9, q ∈ targetsUDLR p →
      q + 3 = p ∨ q = p + 3 ∨ q + 1 = p ∨ q = p + 1 := by decide

/-- Restatement of `targetsUDLR_mem_aux` with hypotheses separated. -/
theorem targetsUDLR_mem (p q : Nat) (hp : p < 9) (hq : q < 9) :
    q ∈ targetsUDLR p →
      q + 3 = p ∨ q = p + 3 ∨ q + 1 = p ∨ q = p + 1 :=
  targetsUDLR_mem_aux p hp q hq

set_option maxHeartbeats 2000000 in
/-- One legal move never changes the inversion parity of the non-blank
tiles: horizontally the non-blank sequence is untouched, vertically the
moved tile crosses exactly two tiles. -/
theorem adjStep_solvable {b b' : List Nat} (hperm : permBoard b)
    (hstep : adjStep b b') : is_solvable b' = is_solvable b := by
  have hnb := neighbors_map_board (PState.mk b 0 0 0 none)
  simp only [PState.board] at hnb
  have hb' : b' ∈ moveBoards b := hstep
  rw [← hnb] at hb'
  rw [neighbors_eq _ (by simpa [PState.board] using hperm)] at hb'
  simp only [List.map_map, List.mem_map, PState.board, PState.g] at hb'
  obtain ⟨q, hq, rfl⟩ := hb'
  show is_solvable (swapCells b (b.indexOf 0) q) = is_solvable b
  have hlen : b.length = 9 := by simpa using hperm.length_eq
  have hnodup : b.Nodup := (hperm.nodup_iff).mpr (by decide)
  have hbi := blankIdx_lt b hperm
  obtain ⟨p, hp⟩ : ∃ p, b.indexOf 0 = p := ⟨_, rfl⟩
  rw [hp] at hq ⊢
  have hp9 : p < 9 := hp ▸ hbi
  have hq9 := targetsUDLR_lt p hp9 q hq
  have hbp : b[p] = 0 := by
    have hmem : (0 : Nat) ∈ b := hperm.mem_iff.mpr (by norm_num)
    have h := List.getElem_indexOf (List.indexOf_lt_length.mpr hmem)
    simp only [hp] at h
    exact h
  have hgetne : ∀ i (hi : i < 9) (_ : i ≠ p), b[i] ≠ 0 := by
    intro i hi hip heq
    have : b[i] = b[p] := by rw [heq, hbp]
    exact hip ((hnodup.getElem_inj_iff).mp this)
  have hij : ∀ i j (hi : i < 9) (hj : j < 9) (_ : i ≠ j),
      b[i] ≠ b[j] := by
    intro i j hi hj hijne heq
    exact hijne ((hnodup.getElem_inj_iff).mp heq)
  rcases targetsUDLR_mem p q hp9 hq9 hq with hqp | hqp | hqp | hqp
  · -- up: blank at p = q + 3, swap with cell q
    subst hqp
    have hex : ∃ X c u v Z, b = X ++ c :: u :: v :: 0 :: Z ∧ X.length = q ∧
        c ≠ 0 ∧ u ≠ 0 ∧ v ≠ 0 ∧ u ≠ c ∧ v ≠ c := by
      have d1 : b.drop q = b[q] :: b.drop (q + 1) :=
        List.drop_eq_getElem_cons (by omega)
      have d2 : b.drop (q + 1) = b[q + 1] :: b.drop (q + 2) :=
        List.drop_eq_getElem_cons (by omega)
      have d3 : b.drop (q + 2) = b[q + 2] :: b.drop (q + 3) :=
        List.drop_eq_getElem_cons (by omega)
      have d4 : b.drop (q + 3) = b[q + 3] :: b.drop (q + 4) :=
        List.drop_eq_getElem_cons (by omega)
      refine ⟨b.take q, b[q], b[q + 1],
        b[q + 2], b.drop (q + 4), ?_, ?_, ?_, ?_, ?_, ?_, ?_⟩
      · calc b = b.take q ++ b.drop q := (List.take_append_drop q b).symm
          _ = _ := by
            rw [d1, d2, d3, d4, show b[q + 3] = 0 from hbp]
      · rw [List.length_take]; omega
      · exact hgetne q (by omega) (by omega)
      · exact hgetne (q + 1) (by omega) (by omega)
      · exact hgetne (q + 2) (by omega) (by omega)
      · exact hij (q + 1) q (by omega) (by omega) (by omega)
      · exact hij (q + 2) q (by omega) (by omega) (by omega)
    obtain ⟨X, c, u, v, Z, rfl, hXlen, hc, hu, hv, huc, hvc⟩ := hex
    subst hXlen
    rw [swapCells_comm (X ++ c :: u :: v :: 0 :: Z) (X.length + 3) X.length
      (by omega), swap_decomp_vert]
    exact solvable_swap_vert X Z c u v 0 (Or.inr rfl) hu hv hu hv huc hvc
  · -- down: blank at p, swap with cell q = p + 3
    subst hqp
    have hex : ∃ X u v t Z, b = X ++ 0 :: u :: v :: t :: Z ∧ X.length = p ∧
        t ≠ 0 ∧ u ≠ 0 ∧ v ≠ 0 ∧ u ≠ t ∧ v ≠ t := by
      have d1 : b.drop p = b[p] :: b.drop (p + 1) :=
        List.drop_eq_getElem_cons (by omega)
      have d2 : b.drop (p + 1) = b[p + 1] :: b.drop (p + 2) :=
        List.drop_eq_getElem_cons (by omega)
      have d3 : b.drop (p + 2) = b[p + 2] :: b.drop (p + 3) :=
        List.drop_eq_getElem_cons (by omega)
      have d4 : b.drop (p + 3) = b[p + 3] :: b.drop (p + 4) :=
        List.drop_eq_getElem_cons (by omega)
      refine ⟨b.take p, b[p + 1], b[p + 2],
        b[p + 3], b.drop (p + 4), ?_, ?_, ?_, ?_, ?_, ?_, ?_⟩
      · calc b = b.take p ++ b.drop p := (List.take_append_drop p b).symm
          _ = _ := by
            rw [d1, d2, d3, d4, show b[p] = 0 from hbp]
      · rw [List.length_take]; omega
      · exact hgetne (p + 3) (by omega) (by omega)
      · exact hgetne (p + 1) (by omega) (by omega)
      · exact hgetne (p + 2) (by omega) (by omega)
      · exact hij (p + 1) (p + 3) (by omega) (by omega) (by omega)
      · exact hij (p + 2) (p + 3) (by omega) (by omega) (by omega)
    obtain ⟨X, u, v, t, Z, rfl, hXlen, ht, hu, hv, hut, hvt⟩ := hex
    subst hXlen
    rw [swap_decomp_vert]
    exact solvable_swap_vert X Z 0 u v t (Or.inl rfl) hu hv hut hvt hu hv
  · -- left: blank at p = q + 1, swap with cell q
    subst hqp
    have hex : ∃ X c Z, b = X ++ c :: 0 :: Z ∧ X.length = q ∧ c ≠ 0 := by
      have d1 : b.drop q = b[q] :: b.drop (q + 1) :=
        List.drop_eq_getElem_cons (by omega)
      have d2 : b.drop (q + 1) = b[q + 1] :: b.drop (q + 2) :=
        List.drop_eq_getElem_cons (by omega)
      refine ⟨b.take q, b[q], b.drop (q + 2), ?_, ?_, ?_⟩
      · calc b = b.take q ++ b.drop q := (List.take_append_drop q b).symm
          _ = _ := by
            rw [d1, d2, show b[q + 1] = 0 from hbp]
      · rw [List.length_take]; omega
      · exact hgetne q (by omega) (by omega)
    obtain ⟨X, c, Z, rfl, hXlen, hc⟩ := hex
    subst hXlen
    rw [swapCells_comm (X ++ c :: 0 :: Z) (X.length + 1) X.length
      (by omega), swap_decomp_adj]
    exact solvable_swap_adj X Z c 0 (Or.inr rfl)
  · -- right: blank at p, swap with cell q = p + 1
    subst hqp
    have hex : ∃ X t Z, b = X ++ 0 :: t :: Z ∧ X.length = p ∧ t ≠ 0 := by
      have d1 : b.drop p = b[p] :: b.drop (p + 1) :=
        List.drop_eq_getElem_cons (by omega)
      have d2 : b.drop (p + 1) = b[p + 1] :: b.drop (p + 2) :=
        List.drop_eq_getElem_cons (by omega)
      refine ⟨b.take p, b[p + 1], b.drop (p + 2), ?_, ?_, ?_⟩
      · calc b = b.take p ++ b.drop p := (List.take_append_drop p b).symm
          _ = _ := by
            rw [d1, d2, show b[p] = 0 from hbp]
      · rw [List.length_take]; omega
      · exact hgetne (p + 1) (by omega) (by omega)
    obtain ⟨X, t, Z, rfl, hXlen, ht⟩ := hex
    subst hXlen
    rw [swap_decomp_adj]
    exact solvable_swap_adj X Z 0 t (Or.inl rfl)

/-- Inversion parity is constant along any sequence of legal moves. -/
theorem reachable_solvable {b b' : List Nat} (hperm : permBoard b)
    (hreach : Reachable b b') : is_solvable b' = is_solvable b := by
  induction hreach with
  | refl => rfl
  | tail hr hstep ih =>
    rw [adjStep_solvable (reachable_perm hperm hr) hstep, ih]

/-! ## C5: unsolvable boards exhaust the frontier -/

theorem aStarLoop_exhausts (start' : PState) (goal : List Nat)
    (method : String) (hm : method = "hamming" ∨ method = "manhattan")
    (hgs : is_solvable goal = true) (hstart : permBoard start'.board)
    (huns : is_solvable start'.board = false) :
    ∀ (fuel : Nat) (frontier : List Entry) (explored : List PState)
      (counter count : Nat),
    LoopInv start' goal frontier explored →
    loopMeasure frontier explored < fuel →
    ∃ cnt, aStarLoop goal method fuel frontier explored counter count =
      some (.ok (none, cnt)) := by
  intro fuel
  induction fuel with
  | zero =>
    intro frontier explored counter count hinv hmlt
    exact absurd hmlt (Nat.not_lt_zero _)
  | succ fuel ih =>
    intro frontier explored counter count hinv hmlt
    cases hpop : popMin frontier with
    | none => exact ⟨count, by simp [aStarLoop, hpop]⟩
    | some pr =>
      rcases pr with ⟨e, rest⟩
      have hflen : frontier.length = rest.length + 1 := by
        simpa using (popMin_perm hpop).length_eq
      have hgoal : (Entry.state e).board ≠ goal := by
        intro heq
        have hre := hinv.reach e (popMin_mem hpop)
        have hps := reachable_solvable hstart hre
        rw [heq, hgs, huns] at hps
        simp at hps
      by_cases hin : inExplored (Entry.state e) explored = true
      · obtain ⟨cnt, hr⟩ := ih rest explored counter count
          (LoopInv_skip hinv hpop hin)
          (by unfold loopMeasure at hmlt ⊢; omega)
        exact ⟨cnt, by simp [aStarLoop, hpop, hgoal, hin, hr]⟩
      · have hin' : inExplored (Entry.state e) explored = false := by
          simpa using hin
        obtain ⟨f', c', hok⟩ := pushNeighbors_ok goal method hm
          (Entry.state e) (Entry.state e).neighbors
          (Entry.state e :: explored) rest counter
        have hinv' := LoopInv_expand hinv hpop hgoal hin' hok
        obtain ⟨pushed, rfl, hplen, -, -⟩ :=
          pushNeighbors_spec goal method _ _ _ _ _ _ _ hok
        have hnb4 := neighbors_length_le (Entry.state e)
        have hexp1 : (Entry.state e :: explored).length ≤ NBOARDS :=
          explored_length_le _ hinv'.exploredValid hinv'.exploredNodup
        have hm' : loopMeasure (rest ++ pushed)
            (Entry.state e :: explored) < fuel := by
          unfold loopMeasure at hmlt ⊢
          rw [List.length_append]
          simp only [List.length_cons] at hexp1 ⊢
          omega
        obtain ⟨cnt, hr⟩ := ih (rest ++ pushed) (Entry.state e :: explored)
          c' (count + 1) hinv' hm'
        exact ⟨cnt, by simp [aStarLoop, hpop, hgoal, hin', hok, hr]⟩

/-- **C5.** For every unsolvable permutation board (odd non-blank inversion
count, goal unreachable), `a_star_search` with either heuristic terminates
by exhausting the frontier: it returns no path together with the final
expansion counter, and raises no error. -/
theorem claim_C5 (board : List Nat)
    (hperm : board.Perm [0, 1, 2, 3, 4, 5, 6, 7, 8])
    (huns : is_solvable board = false) (method : String)
    (hm : method = "hamming" ∨ method = "manhattan") (s : PState)
    (hs : mkPuzzleState board 0 0 = .ok s) :
    ∃ fuel count, a_star_search s goalBoard method fuel =
      some (.ok (none, count)) := by
  have hmem : (0 : Nat) ∈ board := hperm.mem_iff.mpr (by norm_num)
  have hsv : s = .mk board 0 0 0 none := by
    rw [mkPuzzleState, if_pos hmem] at hs
    exact (Except.ok.inj hs).symm
  subst hsv
  obtain ⟨h0, hch⟩ : ∃ h0, compute_h board goalBoard method = .ok h0 := by
    rcases hm with rfl | rfl
    · exact ⟨hamming_distance board goalBoard, rfl⟩
    · exact ⟨manhattan_distance board goalBoard, rfl⟩
  have hstart' : permBoard (PState.mk board 0 h0 (0 + h0) none).board := by
    simpa [PState.board, permBoard] using hperm
  have hinv := LoopInv_init (PState.mk board 0 h0 (0 + h0) none) goalBoard
    hstart' rfl (0 + h0) h0 0
  obtain ⟨cnt, hr⟩ := aStarLoop_exhausts
    (PState.mk board 0 h0 (0 + h0) none) goalBoard method hm (by decide)
    hstart' (by simpa [PState.board] using huns)
    (loopMeasure [(0 + h0, h0, 0, PState.mk board 0 h0 (0 + h0) none)] [] + 1)
    [(0 + h0, h0, 0, PState.mk board 0 h0 (0 + h0) none)] [] 1 0 hinv
    (Nat.lt_succ_self _)
  refine ⟨loopMeasure
    [(0 + h0, h0, 0, PState.mk board 0 h0 (0 + h0) none)] [] + 1, cnt, ?_⟩
  show a_star_search (PState.mk board 0 0 0 none) goalBoard method
    (loopMeasure [(0 + h0, h0, 0, PState.mk board 0 h0 (0 + h0) none)] [] + 1)
      = some (.ok (none, cnt))
  rw [a_star_search]
  have hchs : compute_h (PState.mk board 0 0 0 none).board goalBoard method =
      .ok h0 := hch
  rw [hchs]
  exact hr

/-- Witness for C5 at the unsolvable board `[2,1,3,4,5,6,7,8,0]`. -/
theorem claim_C5_witness :
    ∃ fuel count, a_star_search (.mk [2, 1, 3, 4, 5, 6, 7, 8, 0] 0 0 0 none)
      goalBoard "manhattan" fuel = some (.ok (none, count)) :=
  claim_C5 [2, 1, 3, 4, 5, 6, 7, 8, 0] (by decide) (by decide) "manhattan"
    (Or.inr rfl) (.mk [2, 1, 3, 4, 5, 6, 7, 8, 0] 0 0 0 none) rfl

/-! ## Moves are reversible -/

theorem getElem_swapCells (b : List Nat) (i j k : Nat) (hi : i < b.length)
    (hj : j < b.length) (hk : k < (swapCells b i j).length)
    (hk2 : k < b.length) :
    (swapCells b i j)[k] =
      if k = j then b[i]
      else if k = i then b[j]
      else b[k] := by
  unfold swapCells
  rcases eq_or_ne k j with rfl | hkj
  · rw [List.getElem_set_self]
    simp [List.getD_eq_getElem?_getD, List.getElem?_eq_getElem hi]
  · rw [List.getElem_set_ne (Ne.symm hkj)]
    rcases eq_or_ne k i with rfl | hki
    · rw [List.getElem_set_self]
      simp [hkj, List.getD_eq_getElem?_getD, List.getElem?_eq_getElem hj]
    · rw [List.getElem_set_ne (Ne.symm hki)]
      simp [hkj, hki]

theorem swapCells_involution (b : List Nat) (p q : Nat) (hp : p < b.length)
    (hq : q < b.length) : swapCells (swapCells b p q) q p = b := by
  have hl1 : (swapCells b p q).length = b.length := length_swapCells b p q
  apply List.ext_getElem
  · rw [length_swapCells, length_swapCells]
  · intro k h1 h2
    rw [getElem_swapCells _ _ _ _ (by omega) (by omega) h1 (by omega)]
    by_cases hkp : k = p
    · rw [if_pos hkp, getElem_swapCells _ _ _ _ hp hq (by omega) (by omega), if_pos rfl]
      simp only [hkp]
    · rw [if_neg hkp]
      by_cases hkq : k = q
      · rw [if_pos hkq, getElem_swapCells _ _ _ _ hp hq (by omega) (by omega)]
        have hpq : ¬ p = q := fun h => hkp (hkq.trans h.symm)
        rw [if_neg hpq, if_pos rfl]
        simp only [hkq]
      · rw [if_neg hkq, getElem_swapCells _ _ _ _ hp hq (by omega) (by omega),
          if_neg hkq, if_neg hkp]

theorem blank_after_swap {b : List Nat} {p q : Nat} (hperm : permBoard b)
    (hp : b.indexOf 0 = p) (hq : q < 9) :
    (swapCells b p q).indexOf 0 = q := by
  have hlen : b.length = 9 := by simpa using hperm.length_eq
  have hp9 : p < 9 := by rw [← hp]; exact blankIdx_lt b hperm
  have hbp : b[p] = 0 := by
    have hmem : (0 : Nat) ∈ b := hperm.mem_iff.mpr (by norm_num)
    have h := List.getElem_indexOf (List.indexOf_lt_length.mpr hmem)
    simp only [hp] at h
    exact h
  have hperm' : permBoard (swapCells b p q) :=
    (swapCells_perm b p q (by omega) (by omega)).trans hperm
  have hlen' : (swapCells b p q).length = 9 := length_swapCells b p q ▸ hlen
  have hnodup' : (swapCells b p q).Nodup := (hperm'.nodup_iff).mpr (by decide)
  have hbq : (swapCells b p q)[q] = 0 := by
    rw [getElem_swapCells b p q q (by omega) (by omega) (by omega) (by omega),
      if_pos rfl]
    exact hbp
  have hmem' : (0 : Nat) ∈ swapCells b p q := hperm'.mem_iff.mpr (by norm_num)
  have hix : (swapCells b p q).indexOf 0 < (swapCells b p q).length :=
    List.indexOf_lt_length.mpr hmem'
  have hidx : (swapCells b p q)[(swapCells b p q).indexOf 0] = 0 :=
    List.getElem_indexOf hix
  have : (swapCells b p q)[(swapCells b p q).indexOf 0] =
      (swapCells b p q)[q] := by
    rw [hidx, hbq]
  exact (hnodup'.getElem_inj_iff).mp this

/-- Every swap target sees the original blank position among its own
targets (checked case by case). -/
theorem targetsUDLR_symm_aux :
    ∀ p < 9, ∀ q < 9, q ∈ targetsUDLR p → p ∈ targetsUDLR q := by decide

theorem adjStep_symm {b b' : List Nat} (hperm : permBoard b)
    (h : adjStep b b') : adjStep b' b := by
  have hnb := neighbors_map_board (PState.mk b 0 0 0 none)
  simp only [PState.board] at hnb
  have hb' : b' ∈ moveBoards b := h
  rw [← hnb] at hb'
  rw [neighbors_eq _ (by simpa [PState.board] using hperm)] at hb'
  simp only [List.map_map, List.mem_map, PState.board, PState.g] at hb'
  obtain ⟨q, hq, rfl⟩ := hb'
  have hlen : b.length = 9 := by simpa using hperm.length_eq
  obtain ⟨p, hp⟩ : ∃ p, b.indexOf 0 = p := ⟨_, rfl⟩
  rw [hp] at hq ⊢
  have hp9 : p < 9 := by rw [← hp]; exact blankIdx_lt b hperm
  have hq9 := targetsUDLR_lt p hp9 q hq
  have hperm' : permBoard (swapCells b p q) :=
    (swapCells_perm b p q (by omega) (by omega)).trans hperm
  have hblank' : (swapCells b p q).indexOf 0 = q := blank_after_swap hperm hp hq9
  have hnb' := neighbors_map_board (PState.mk (swapCells b p q) 0 0 0 none)
  simp only [PState.board] at hnb'
  show b ∈ moveBoards (swapCells b p q)
  rw [← hnb', neighbors_eq _ (by simpa [PState.board] using hperm')]
  simp only [List.map_map, List.mem_map, PState.board, PState.g]
  refine ⟨p, ?_, ?_⟩
  · rw [hblank']
    exact targetsUDLR_symm_aux p hp9 q hq9 hq
  · show swapCells (swapCells b p q) ((swapCells b p q).indexOf 0) p = b
    rw [hblank']
    exact swapCells_involution b p q (by omega) (by omega)

theorem reachable_symm {b b' : List Nat} (hperm : permBoard b)
    (h : Reachable b b') : Reachable b' b := by
  induction h with
  | refl => exact Relation.ReflTransGen.refl
  | tail hr hstep ih =>
    exact Relation.ReflTransGen.head
      (adjStep_symm (reachable_perm hperm hr) hstep) ih

/-! ## Word actions: applying move sequences uniformly -/

theorem neighbors_eq_filterMap (s : PState) :
    s.neighbors = moveDeltas.filterMap (fun d =>
      (moveTargetPos s.blank_index d).map (fun q =>
        PState.mk (swapCells s.board s.blank_index q)
          (s.g + 1) 0 (s.g + 1) none)) := by
  simp only [PState.neighbors, moveTargetPos]
  apply List.filterMap_congr
  intro d hd
  split <;> simp

theorem moveTargetPos_lt {p : Nat} {d : Int × Int} {q : Nat}
    (h : moveTargetPos p d = some q) : q < 9 := by
  unfold moveTargetPos at h
  dsimp only at h
  split at h
  · rename_i hcond
    obtain ⟨h1, h2, h3, h4⟩ := hcond
    obtain rfl := Option.some.inj h
    omega
  · cases h

theorem applyMove_mem_moveBoards {b b' : List Nat} {d : Int × Int}
    (hd : d ∈ moveDeltas) (h : applyMove b d = some b') :
    b' ∈ moveBoards b := by
  unfold applyMove at h
  cases hq : moveTargetPos (b.indexOf 0) d with
  | none => rw [hq] at h; cases h
  | some q =>
    rw [hq] at h
    obtain rfl := Option.some.inj h
    have hnb := neighbors_map_board (PState.mk b 0 0 0 none)
    simp only [PState.board] at hnb
    rw [← hnb, neighbors_eq_filterMap]
    simp only [PState.blank_index, PState.board, PState.g]
    refine List.mem_map.mpr ⟨PState.mk (swapCells b (b.indexOf 0) q)
      (0 + 1) 0 (0 + 1) none, ?_, rfl⟩
    exact List.mem_filterMap.mpr ⟨d, hd, by rw [hq]; rfl⟩

theorem applyWord_reachable :
    ∀ (w : List (Int × Int)) (b b' : List Nat),
    (∀ d ∈ w, d ∈ moveDeltas) → permBoard b → applyWord b w = some b' →
    Reachable b b' ∧ permBoard b' := by
  intro w
  induction w with
  | nil =>
    intro b b' _ hperm h
    obtain rfl := Option.some.inj h
    exact ⟨Relation.ReflTransGen.refl, hperm⟩
  | cons d w ih =>
    intro b b' hd hperm h
    unfold applyWord at h
    cases hm : applyMove b d with
    | none => rw [hm] at h; cases h
    | some b₁ =>
      rw [hm] at h
      have hstep : adjStep b b₁ :=
        applyMove_mem_moveBoards (hd d (List.mem_cons_self _ _)) hm
      have hperm₁ : permBoard b₁ := adjStep_perm hperm hstep
      obtain ⟨hr, hp⟩ := ih b₁ b'
        (fun d' hd' => hd d' (List.mem_cons_of_mem _ hd')) hperm₁ h
      exact ⟨Relation.ReflTransGen.head hstep hr, hp⟩

theorem length_applyPerm (P b : List Nat) :
    (applyPerm P b).length = P.length := List.length_map _ _

theorem getElem_applyPerm (P b : List Nat) (i : Nat)
    (hi : i < (applyPerm P b).length) :
    (applyPerm P b)[i] = b.getD (P.getD i 0) 0 := by
  have hi2 : i < P.length := by simpa [length_applyPerm] using hi
  rw [show (applyPerm P b)[i] = b.getD P[i] 0 from List.getElem_map _,
    List.getD_eq_getElem P 0 hi2]

theorem applyPerm_range (b : List Nat) (hb : b.length = 9) :
    applyPerm (List.range 9) b = b := by
  apply List.ext_getElem
  · simp [length_applyPerm, hb]
  · intro k h1 h2
    have hk9 : k < 9 := by simpa [length_applyPerm] using h1
    rw [getElem_applyPerm, List.getD_eq_getElem (List.range 9) 0
      (by simpa using hk9), List.getElem_range,
      List.getD_eq_getElem _ _ (by omega)]

theorem applyPerm_transpList (b : List Nat) (p q : Nat) (hb : b.length = 9)
    (hp : p < 9) (hq : q < 9) :
    applyPerm (transpList p q) b = swapCells b p q := by
  apply List.ext_getElem
  · simp [length_applyPerm, transpList, length_swapCells, hb]
  · intro k h1 h2
    have hk9 : k < 9 := by
      simpa [length_applyPerm, transpList] using h1
    have htl : k < (transpList p q).length := by simp [transpList]; omega
    rw [getElem_applyPerm,
      getElem_swapCells b p q k (by omega) (by omega) h2 (by omega),
      List.getD_eq_getElem _ 0 htl]
    have htr : (transpList p q)[k] =
        if k = p then q else if k = q then p else k := by
      simp [transpList]
    rw [htr]
    split_ifs <;>
      (rw [List.getD_eq_getElem _ _ (by omega)]
       try rfl
       try (congr 1 <;> omega))

theorem getD_applyPerm (T b : List Nat) (j : Nat) (hj : j < T.length) :
    (applyPerm T b).getD j 0 = b.getD (T.getD j 0) 0 := by
  rw [List.getD_eq_getElem _ 0 (by rw [length_applyPerm]; omega),
    getElem_applyPerm]

theorem applyPerm_applyPerm (T P b : List Nat) (hT : T.length = 9)
    (hP : ∀ x ∈ P, x < 9) :
    applyPerm P (applyPerm T b) = applyPerm (composePerm T P) b := by
  apply List.ext_getElem
  · simp [length_applyPerm, composePerm]
  · intro k h1 h2
    have hkP : k < P.length := by simpa [length_applyPerm] using h1
    have hx : P[k] < 9 := hP _ (List.getElem_mem hkP)
    have hPk9 : P.getD k 0 < 9 := by
      rw [List.getD_eq_getElem P 0 hkP]
      exact hx
    rw [getElem_applyPerm, getElem_applyPerm,
      getD_applyPerm T b _ (by omega)]
    congr 1
    rw [List.getD_eq_getElem (composePerm T P) 0 (by simp [composePerm]; omega)]
    simp only [composePerm, List.getElem_map]
    rw [List.getD_eq_getElem P 0 hkP]

theorem wordPermAux_wf :
    ∀ (w : List (Int × Int)) (p : Nat) (P : List Nat) (p' : Nat),
    p < 9 → wordPermAux p w = some (P, p') →
    P.length = 9 ∧ (∀ x ∈ P, x < 9) ∧ p' < 9 := by
  intro w
  induction w with
  | nil =>
    intro p P p' hp h
    obtain ⟨rfl, rfl⟩ := Prod.mk.inj (Option.some.inj h)
    exact ⟨by simp, fun x hx => by simpa using List.mem_range.mp hx, hp⟩
  | cons d w ih =>
    intro p P p' hp h
    unfold wordPermAux at h
    cases hq : moveTargetPos p d with
    | none => rw [hq] at h; cases h
    | some q =>
      rw [hq] at h
      dsimp only at h
      cases hw : wordPermAux q w with
      | none => rw [hw] at h; cases h
      | some pr =>
        rcases pr with ⟨P', p''⟩
        rw [hw] at h
        dsimp only at h
        obtain ⟨rfl, rfl⟩ := Prod.mk.inj (Option.some.inj h)
        have hq9 : q < 9 := moveTargetPos_lt hq
        obtain ⟨hlen, hmem, hp'⟩ := ih q P' p'' hq9 hw
        refine ⟨by simp [composePerm, hlen], ?_, hp'⟩
        intro x hx
        obtain ⟨y, hy, rfl⟩ := List.mem_map.mp hx
        have hy9 : y < 9 := hmem y hy
        have : (transpList p q).getD y 0 =
            if y = p then q else if y = q then p else y := by
          rw [List.getD_eq_getElem _ _ (by simp [transpList]; omega)]
          simp [transpList]
        rw [this]
        split
        · omega
        · split <;> omega

theorem wordPermAux_spec :
    ∀ (w : List (Int × Int)) (p : Nat) (P : List Nat) (p' : Nat)
      (b : List Nat),
    permBoard b → b.indexOf 0 = p → wordPermAux p w = some (P, p') →
    applyWord b w = some (applyPerm P b) ∧ (applyPerm P b).indexOf 0 = p' := by
  intro w
  induction w with
  | nil =>
    intro p P p' b hperm hb h
    obtain ⟨rfl, rfl⟩ := Prod.mk.inj (Option.some.inj h)
    have hlen : b.length = 9 := by simpa using hperm.length_eq
    rw [applyWord, applyPerm_range b hlen]
    exact ⟨rfl, hb⟩
  | cons d w ih =>
    intro p P p' b hperm hb h
    unfold wordPermAux at h
    cases hq : moveTargetPos p d with
    | none => rw [hq] at h; cases h
    | some q =>
      rw [hq] at h
      dsimp only at h
      cases hw : wordPermAux q w with
      | none => rw [hw] at h; cases h
      | some pr =>
        rcases pr with ⟨P', p''⟩
        rw [hw] at h
        dsimp only at h
        obtain ⟨rfl, rfl⟩ := Prod.mk.inj (Option.some.inj h)
        have hlen : b.length = 9 := by simpa using hperm.length_eq
        have hp9 : p < 9 := by rw [← hb]; exact blankIdx_lt b hperm
        have hq9 : q < 9 := moveTargetPos_lt hq
        have hperm₁ : permBoard (swapCells b p q) :=
          (swapCells_perm b p q (by omega) (by omega)).trans hperm
        have hblank₁ : (swapCells b p q).indexOf 0 = q :=
          blank_after_swap hperm hb hq9
        obtain ⟨hrec, hbl⟩ := ih q P' p'' (swapCells b p q) hperm₁ hblank₁ hw
        have htr : applyPerm P' (swapCells b p q) =
            applyPerm (composePerm (transpList p q) P') b := by
          rw [← applyPerm_transpList b p q hlen hp9 hq9,
            applyPerm_applyPerm _ _ _ (by simp [transpList])
              (wordPermAux_wf w q P' p'' hq9 hw).2.1]
        have hmv : applyMove b d = some (swapCells b p q) := by
          unfold applyMove
          rw [hb, hq]
        constructor
        · rw [applyWord, hmv]
          dsimp only
          rw [hrec, htr]
        · rw [← htr]
          exact hbl

/-! ## The move-word certificates hold -/

theorem checkCert_all : ∀ k < 8, ∀ j < k, 2 ≤ k → checkCert k j = true := by
  decide

theorem checkBlank_all : ∀ p < 9, checkBlank p = true := by decide

theorem checkCert_spec (k j : Nat) (h : checkCert k j = true) :
    ∃ P, wordPermAux 8 (wordFor k j) = some (P, 8) ∧ P.getD k 0 = j ∧
      (∀ i, k < i → i < 8 → P.getD i 0 = i) ∧
      ∀ d ∈ wordFor k j, d ∈ moveDeltas := by
  unfold checkCert at h
  cases hw : wordPermAux 8 (wordFor k j) with
  | none => rw [hw] at h; cases h
  | some pr =>
    rcases pr with ⟨P, p'⟩
    rw [hw] at h
    dsimp only at h
    simp only [Bool.and_eq_true, beq_iff_eq, List.all_eq_true,
      Bool.or_eq_true, Bool.not_eq_true', Bool.and_eq_true,
      decide_eq_false_iff_not, decide_eq_true_eq] at h
    obtain ⟨⟨⟨hp', hPk⟩, hfix⟩, hdel⟩ := h
    subst hp'
    refine ⟨P, rfl, hPk, ?_, hdel⟩
    intro i hki hi8
    have hi9 : i ∈ List.range 9 := List.mem_range.mpr (by omega)
    rcases hfix i hi9 with hcon | hval
    · simp only [Bool.and_eq_false_iff, decide_eq_false_iff_not] at hcon
      rcases hcon with hc | hc <;> omega
    · exact hval

theorem checkBlank_spec (p : Nat) (h : checkBlank p = true) :
    ∃ P, wordPermAux p (blankWord p) = some (P, 8) ∧
      ∀ d ∈ blankWord p, d ∈ moveDeltas := by
  unfold checkBlank at h
  cases hw : wordPermAux p (blankWord p) with
  | none => rw [hw] at h; cases h
  | some pr =>
    rcases pr with ⟨P, p'⟩
    rw [hw] at h
    dsimp only at h
    simp only [Bool.and_eq_true, beq_iff_eq, List.all_eq_true,
      decide_eq_true_eq] at h
    obtain ⟨hp', hdel⟩ := h
    subst hp'
    exact ⟨P, rfl, hdel⟩

/-! ## Every solvable board reaches the goal -/

theorem goalGetD : ∀ k < 8, goalBoard.getD k 0 = k + 1 := by decide

set_option maxHeartbeats 2000000 in
/-- Stabilizer-chain induction on boards: a solvable board with the blank
at position 8 that agrees with the goal on all positions in `[k, 8)` is
reachable from the goal — place position `k-1` with a certificate word and
recurse, down to the two-tile base case where the odd arrangement is
exactly the unsolvable one. -/
theorem reach_of_matchAbove :
    ∀ (k : Nat), 2 ≤ k → k ≤ 8 → ∀ b : List Nat, permBoard b →
    b.indexOf 0 = 8 → is_solvable b = true →
    (∀ i, k ≤ i → i < 8 → b.getD i 0 = goalBoard.getD i 0) →
    Reachable goalBoard b := by
  have main : ∀ (k : Nat) (_ : 2 ≤ k), k ≤ 8 → ∀ b : List Nat, permBoard b →
      b.indexOf 0 = 8 → is_solvable b = true →
      (∀ i, k ≤ i → i < 8 → b.getD i 0 = goalBoard.getD i 0) →
      Reachable goalBoard b := by
    intro k hk
    induction k, hk using Nat.le_induction with
    | base =>
      intro _ b hperm hblank hsolv hmatch
      have hlen : b.length = 9 := by simpa using hperm.length_eq
      have hnodup : b.Nodup := (hperm.nodup_iff).mpr (by decide)
      have hm : ∀ i (_ : 2 ≤ i) (_ : i < 8), b[i] = i + 1 := by
        intro i h2i hi8
        have h := hmatch i h2i hi8
        rw [List.getD_eq_getElem _ _ (by omega)] at h
        rw [h]
        exact goalGetD i (by omega)
      have hb8 : b[8] = 0 := by
        have hmem : (0 : Nat) ∈ b := hperm.mem_iff.mpr (by norm_num)
        have h := List.getElem_indexOf (List.indexOf_lt_length.mpr hmem)
        simp only [hblank] at h
        exact h
      have hij : ∀ i j (_ : i < 9) (_ : j < 9) (_ : i ≠ j),
          b[i] ≠ b[j] := by
        intro i j hi hj hijne heq
        exact hijne ((hnodup.getElem_inj_iff).mp heq)
      have hlt : ∀ i (_ : i < 9), b[i] < 9 := by
        intro i hi
        have h1 : b[i] ∈ b := List.getElem_mem _
        have h2 := hperm.mem_iff.mp h1
        simp at h2
        omega
      have h0 : b[0] = 1 ∨ b[0] = 2 := by
        have n2 := hij 0 2 (by omega) (by omega) (by omega)
        have n3 := hij 0 3 (by omega) (by omega) (by omega)
        have n4 := hij 0 4 (by omega) (by omega) (by omega)
        have n5 := hij 0 5 (by omega) (by omega) (by omega)
        have n6 := hij 0 6 (by omega) (by omega) (by omega)
        have n7 := hij 0 7 (by omega) (by omega) (by omega)
        have n8 := hij 0 8 (by omega) (by omega) (by omega)
        rw [hm 2 (by omega) (by omega)] at n2
        rw [hm 3 (by omega) (by omega)] at n3
        rw [hm 4 (by omega) (by omega)] at n4
        rw [hm 5 (by omega) (by omega)] at n5
        rw [hm 6 (by omega) (by omega)] at n6
        rw [hm 7 (by omega) (by omega)] at n7
        rw [hb8] at n8
        have := hlt 0 (by omega)
        omega
      have h1 : b[1] = 1 ∨ b[1] = 2 := by
        have n2 := hij 1 2 (by omega) (by omega) (by omega)
        have n3 := hij 1 3 (by omega) (by omega) (by omega)
        have n4 := hij 1 4 (by omega) (by omega) (by omega)
        have n5 := hij 1 5 (by omega) (by omega) (by omega)
        have n6 := hij 1 6 (by omega) (by omega) (by omega)
        have n7 := hij 1 7 (by omega) (by omega) (by omega)
        have n8 := hij 1 8 (by omega) (by omega) (by omega)
        rw [hm 2 (by omega) (by omega)] at n2
        rw [hm 3 (by omega) (by omega)] at n3
        rw [hm 4 (by omega) (by omega)] at n4
        rw [hm 5 (by omega) (by omega)] at n5
        rw [hm 6 (by omega) (by omega)] at n6
        rw [hm 7 (by omega) (by omega)] at n7
        rw [hb8] at n8
        have := hlt 1 (by omega)
        omega
      have hne01 := hij 0 1 (by omega) (by omega) (by omega)
      rcases h0 with h0 | h0 <;> rcases h1 with h1 | h1
      · rw [h0, h1] at hne01; simp at hne01
      · have hb : b = goalBoard := by
          apply List.ext_getElem (by rw [hlen]; rfl)
          intro i hi1 hi2
          have hi9 : i < 9 := by omega
          interval_cases i
          · exact h0
          · exact h1
          · exact hm 2 (by omega) (by omega)
          · exact hm 3 (by omega) (by omega)
          · exact hm 4 (by omega) (by omega)
          · exact hm 5 (by omega) (by omega)
          · exact hm 6 (by omega) (by omega)
          · exact hm 7 (by omega) (by omega)
          · exact hb8
        rw [hb]
        exact Relation.ReflTransGen.refl
      · have hb : b = [2, 1, 3, 4, 5, 6, 7, 8, 0] := by
          apply List.ext_getElem (by rw [hlen]; rfl)
          intro i hi1 hi2
          have hi9 : i < 9 := by omega
          interval_cases i
          · exact h0
          · exact h1
          · exact hm 2 (by omega) (by omega)
          · exact hm 3 (by omega) (by omega)
          · exact hm 4 (by omega) (by omega)
          · exact hm 5 (by omega) (by omega)
          · exact hm 6 (by omega) (by omega)
          · exact hm 7 (by omega) (by omega)
          · exact hb8
        rw [hb] at hsolv
        exact absurd hsolv (by decide)
      · rw [h0, h1] at hne01; simp at hne01
    | succ k hk2 ih =>
      intro hk8 b hperm hblank hsolv hmatch
      have hlen : b.length = 9 := by simpa using hperm.length_eq
      have hnodup : b.Nodup := (hperm.nodup_iff).mpr (by decide)
      have hkmem : (k + 1 : Nat) ∈ b := by
        apply hperm.mem_iff.mpr
        simp
        omega
      obtain ⟨j, hj⟩ : ∃ j, b.indexOf (k + 1) = j := ⟨_, rfl⟩
      have hj9 : j < 9 := by
        have := List.indexOf_lt_length.mpr hkmem
        omega
      have hbj : b[j] = k + 1 := by
        have h := List.getElem_indexOf (List.indexOf_lt_length.mpr hkmem)
        simp only [hj] at h
        exact h
      have hb8 : b[8] = 0 := by
        have hmem : (0 : Nat) ∈ b := hperm.mem_iff.mpr (by norm_num)
        have h := List.getElem_indexOf (List.indexOf_lt_length.mpr hmem)
        simp only [hblank] at h
        exact h
      by_cases hjk : j = k
      · -- tile k+1 already sits at position k
        apply ih (by omega) b hperm hblank hsolv
        intro i hki hi8
        rcases Nat.eq_or_lt_of_le hki with rfl | hlt2
        · rw [goalGetD k (by omega), List.getD_eq_getElem _ _ (by omega)]
          have h := hbj
          simp only [hjk] at h
          exact h
        · exact hmatch i (by omega) hi8
      · -- tile k+1 sits strictly below position k: move it up with a word
        have hj8 : j ≠ 8 := by
          intro h
          subst h
          have h2 := hb8.symm.trans hbj
          omega
        have hjne : ∀ i, k < i → i < 8 → j ≠ i := by
          intro i hki hi8 h
          subst h
          have h2 := hmatch j (by omega) hi8
          rw [List.getD_eq_getElem _ _ (by omega), goalGetD j (by omega)] at h2
          rw [hbj] at h2
          omega
        have hjk' : j < k := by
          by_contra hge
          have h1 : k < j := by omega
          have h2 : j < 8 := by omega
          exact hjne j h1 h2 rfl
        obtain ⟨P, hwp, hPk, hPfix, hdel⟩ := checkCert_spec k j
          (checkCert_all k (by omega) j hjk' (by omega))
        obtain ⟨happ, hblank₂⟩ := wordPermAux_spec (wordFor k j) 8 P 8 b
          hperm hblank hwp
        obtain ⟨hr, hperm₂⟩ := applyWord_reachable (wordFor k j) b
          (applyPerm P b) hdel hperm happ
        obtain ⟨hPlen, hPmem, -⟩ := wordPermAux_wf (wordFor k j) 8 P 8
          (by omega) hwp
        have hsolv₂ : is_solvable (applyPerm P b) = true := by
          rw [reachable_solvable hperm hr, hsolv]
        have hmatch₂ : ∀ i, k ≤ i → i < 8 →
            (applyPerm P b).getD i 0 = goalBoard.getD i 0 := by
          intro i hki hi8
          rw [getD_applyPerm P b i (by omega)]
          rcases Nat.eq_or_lt_of_le hki with rfl | hlt2
          · rw [hPk, goalGetD k (by omega),
              List.getD_eq_getElem _ _ (by omega)]
            exact hbj
          · rw [hPfix i (by omega) hi8]
            exact hmatch i (by omega) hi8
        have hreach₂ := ih (by omega) (applyPerm P b) hperm₂ hblank₂
          hsolv₂ hmatch₂
        exact hreach₂.trans (reachable_symm hperm hr)
  exact fun k h2 h8 => main k h2 h8

/-- Every solvable permutation board reaches the goal: walk the blank to
position 8, then run the chain induction. -/
theorem solvable_reachable {b : List Nat} (hperm : permBoard b)
    (hsolv : is_solvable b = true) : Reachable b goalBoard := by
  obtain ⟨p, hp⟩ : ∃ p, b.indexOf 0 = p := ⟨_, rfl⟩
  have hp9 : p < 9 := by rw [← hp]; exact blankIdx_lt b hperm
  obtain ⟨P, hwp, hdel⟩ := checkBlank_spec p (checkBlank_all p hp9)
  obtain ⟨happ, hblank₁⟩ := wordPermAux_spec (blankWord p) p P 8 b
    hperm hp hwp
  obtain ⟨hr, hperm₁⟩ := applyWord_reachable (blankWord p) b
    (applyPerm P b) hdel hperm happ
  have hsolv₁ : is_solvable (applyPerm P b) = true := by
    rw [reachable_solvable hperm hr, hsolv]
  have hgr : Reachable goalBoard (applyPerm P b) :=
    reach_of_matchAbove 8 (by omega) (le_refl _) (applyPerm P b)
      hperm₁ hblank₁ hsolv₁ (fun i h8 h8' => by omega)
  have hpg : permBoard goalBoard := by unfold permBoard; decide
  exact hr.trans (reachable_symm hpg hgr)

/-! ## Completeness: a reachable goal is found -/

theorem closed_explored {start' : PState} {goal : List Nat}
    {explored : List PState}
    (hinv : LoopInv start' goal [] explored)
    (hreach : Reachable start'.board goal) : False := by
  have hstartmem : start'.board ∈ explored.map PState.board := by
    rcases hinv.startMem with h | h
    · exact h
    · simp [frontierBoards] at h
  have hcl : ∀ s ∈ explored, ∀ b ∈ moveBoards s.board,
      b ∈ explored.map PState.board := by
    intro s hs b hb
    rcases hinv.closure s hs b hb with h | h
    · exact h
    · simp [frontierBoards] at h
  have hallmem : ∀ b, Relation.ReflTransGen adjStep start'.board b →
      b ∈ explored.map PState.board := by
    intro b hb
    induction hb with
    | refl => exact hstartmem
    | tail h₁ h₂ ih =>
      obtain ⟨s, hs, hsb⟩ := List.mem_map.mp ih
      exact hcl s hs _ (by rw [hsb]; exact h₂)
  exact hinv.goalNotExplored (hallmem goal hreach)

theorem aStarLoop_finds (start' : PState) (goal : List Nat)
    (method : String) (hm : method = "hamming" ∨ method = "manhattan")
    (hreach : Reachable start'.board goal) :
    ∀ (fuel : Nat) (frontier : List Entry) (explored : List PState)
      (counter count : Nat),
    LoopInv start' goal frontier explored →
    loopMeasure frontier explored < fuel →
    ∃ path cnt,
      aStarLoop goal method fuel frontier explored counter count =
        some (.ok (some path, cnt)) ∧ path.head? = some start' ∧
      ∃ last, path.getLast? = some last ∧ last.board = goal := by
  intro fuel
  induction fuel with
  | zero =>
    intro frontier explored counter count hinv hmlt
    exact absurd hmlt (Nat.not_lt_zero _)
  | succ fuel ih =>
    intro frontier explored counter count hinv hmlt
    cases hpop : popMin frontier with
    | none =>
      rw [popMin_eq_none] at hpop
      subst hpop
      exact absurd hreach (fun h => closed_explored hinv h)
    | some pr =>
      rcases pr with ⟨e, rest⟩
      have hflen : frontier.length = rest.length + 1 := by
        simpa using (popMin_perm hpop).length_eq
      by_cases hgoal : (Entry.state e).board = goal
      · refine ⟨reconstruct_path (Entry.state e), count,
          by simp [aStarLoop, hpop, hgoal], ?_,
          Entry.state e, reconstruct_getLast _, hgoal⟩
        rw [reconstruct_head (Entry.state e),
          hinv.roots e (popMin_mem hpop)]
      · by_cases hin : inExplored (Entry.state e) explored = true
        · obtain ⟨path, cnt, hr, hhd, hlst⟩ := ih rest explored counter count
            (LoopInv_skip hinv hpop hin)
            (by unfold loopMeasure at hmlt ⊢; omega)
          exact ⟨path, cnt, by simp [aStarLoop, hpop, hgoal, hin, hr],
            hhd, hlst⟩
        · have hin' : inExplored (Entry.state e) explored = false := by
            simpa using hin
          obtain ⟨f', c', hok⟩ := pushNeighbors_ok goal method hm
            (Entry.state e) (Entry.state e).neighbors
            (Entry.state e :: explored) rest counter
          have hinv' := LoopInv_expand hinv hpop hgoal hin' hok
          obtain ⟨pushed, rfl, hplen, -, -⟩ :=
            pushNeighbors_spec goal method _ _ _ _ _ _ _ hok
          have hnb4 := neighbors_length_le (Entry.state e)
          have hexp1 : (Entry.state e :: explored).length ≤ NBOARDS :=
            explored_length_le _ hinv'.exploredValid hinv'.exploredNodup
          have hm' : loopMeasure (rest ++ pushed)
              (Entry.state e :: explored) < fuel := by
            unfold loopMeasure at hmlt ⊢
            rw [List.length_append]
            simp only [List.length_cons] at hexp1 ⊢
            omega
          obtain ⟨path, cnt, hr, hhd, hlst⟩ := ih (rest ++ pushed)
            (Entry.state e :: explored) c' (count + 1) hinv' hm'
          exact ⟨path, cnt, by simp [aStarLoop, hpop, hgoal, hin', hok, hr],
            hhd, hlst⟩

set_option maxHeartbeats 1000000 in
/-- **C1.** For every solvable start board (a permutation of 0..8 with an
even non-blank inversion count), `a_star_search` with the goal
`[1,2,3,4,5,6,7,8,0]` and either heuristic name terminates and returns a
path whose first state's board is the start board and whose last state's
board is the goal board. -/
theorem claim_C1 (board : List Nat)
    (hperm : board.Perm [0, 1, 2, 3, 4, 5, 6, 7, 8])
    (hsolv : is_solvable board = true) (method : String)
    (hm : method = "hamming" ∨ method = "manhattan") (s : PState)
    (hs : mkPuzzleState board 0 0 = .ok s) :
    ∃ fuel path count, a_star_search s goalBoard method fuel =
      some (.ok (some path, count)) ∧
      path.head?.map PState.board = some board ∧
      path.getLast?.map PState.board = some goalBoard := by
  have hmem : (0 : Nat) ∈ board := hperm.mem_iff.mpr (by norm_num)
  have hsv : s = .mk board 0 0 0 none := by
    rw [mkPuzzleState, if_pos hmem] at hs
    exact (Except.ok.inj hs).symm
  subst hsv
  obtain ⟨h0, hch⟩ : ∃ h0, compute_h board goalBoard method = .ok h0 := by
    rcases hm with rfl | rfl
    · exact ⟨hamming_distance board goalBoard, rfl⟩
    · exact ⟨manhattan_distance board goalBoard, rfl⟩
  have hstart' : permBoard (PState.mk board 0 h0 (0 + h0) none).board := by
    simpa [PState.board, permBoard] using hperm
  have hreach : Reachable (PState.mk board 0 h0 (0 + h0) none).board
      goalBoard :=
    solvable_reachable hstart' (by simpa [PState.board] using hsolv)
  have hinv := LoopInv_init (PState.mk board 0 h0 (0 + h0) none) goalBoard
    hstart' rfl (0 + h0) h0 0
  obtain ⟨path, cnt, hr, hhead, last, hlast, hlastb⟩ := aStarLoop_finds
    (PState.mk board 0 h0 (0 + h0) none) goalBoard method hm hreach
    (loopMeasure [(0 + h0, h0, 0, PState.mk board 0 h0 (0 + h0) none)] [] + 1)
    [(0 + h0, h0, 0, PState.mk board 0 h0 (0 + h0) none)] [] 1 0 hinv
    (Nat.lt_succ_self _)
  refine ⟨loopMeasure
    [(0 + h0, h0, 0, PState.mk board 0 h0 (0 + h0) none)] [] + 1, path, cnt,
    ?_, ?_, ?_⟩
  · show a_star_search (PState.mk board 0 0 0 none) goalBoard method
      (loopMeasure
        [(0 + h0, h0, 0, PState.mk board 0 h0 (0 + h0) none)] [] + 1)
        = some (.ok (some path, cnt))
    rw [a_star_search]
    have hchs : compute_h (PState.mk board 0 0 0 none).board goalBoard
        method = .ok h0 := hch
    rw [hchs]
    exact hr
  · rw [hhead]
    rfl
  · rw [hlast]
    show some last.board = some goalBoard
    rw [hlastb]

/-- Witness for C1 at the solvable board `[1,2,3,4,5,6,7,0,8]`. -/
theorem claim_C1_witness :
    ∃ fuel path count,
      a_star_search (.mk [1, 2, 3, 4, 5, 6, 7, 0, 8] 0 0 0 none) goalBoard
        "hamming" fuel = some (.ok (some path, count)) ∧
      path.head?.map PState.board = some [1, 2, 3, 4, 5, 6, 7, 0, 8] ∧
      path.getLast?.map PState.board = some goalBoard :=
  claim_C1 [1, 2, 3, 4, 5, 6, 7, 0, 8] (by decide) (by decide) "hamming"
    (Or.inl rfl) (.mk [1, 2, 3, 4, 5, 6, 7, 0, 8] 0 0 0 none) rfl

end Puzzle8
